import Mathlib

/-!
Verification of the `clams-utils` transcript-cleanup pipeline.

Text is modelled as `List Char`.  Each Python `re` pattern used by the
source is embedded as a hand-written matcher that reproduces the
backtracking behaviour of that concrete pattern (leftmost match, greedy
quantifiers tried longest-first, alternatives tried in source order).
`re.sub` is embedded as a generic scan driver `pySubAll` that finds
non-overlapping matches left to right and replaces each one.  Character
classes follow Python's semantics on the Unicode code points that the
transcripts use; the whitespace and line-break sets are spelled out
explicitly below.
-/

namespace ClamsUtils

/-- Code points accepted by Python's `str.isspace` / regex `\s` on `str`. -/
def pyWsCodes : List Nat :=
  [9, 10, 11, 12, 13, 28, 29, 30, 31, 32, 133, 160, 5760,
   8192, 8193, 8194, 8195, 8196, 8197, 8198, 8199, 8200, 8201, 8202,
   8232, 8233, 8239, 8287, 12288]

/-- Python whitespace test (`str.isspace`, regex `\s`). -/
def pyWs (c : Char) : Bool := pyWsCodes.contains c.toNat

/-- Code points treated as line boundaries by Python's `str.splitlines`
(`\r\n` is additionally combined into a single boundary). -/
def pyLineBreakCodes : List Nat := [10, 11, 12, 13, 28, 29, 30, 133, 8232, 8233]

def pyLineBreak (c : Char) : Bool := pyLineBreakCodes.contains c.toNat

def isAsciiUpper (c : Char) : Bool := 'A' ≤ c && c ≤ 'Z'

def isAsciiLower (c : Char) : Bool := 'a' ≤ c && c ≤ 'z'

def isAsciiAlpha (c : Char) : Bool := isAsciiUpper c || isAsciiLower c

def isAsciiDigit (c : Char) : Bool := '0' ≤ c && c ≤ '9'

/-- ASCII lowering, used to model `re.IGNORECASE` on the ASCII patterns
of the source. -/
def lowerAscii (c : Char) : Char :=
  if isAsciiUpper c then Char.ofNat (c.toNat + 32) else c

/-- Case-insensitive character comparison (ASCII). -/
def icaseEqChar (a b : Char) : Bool := lowerAscii a == lowerAscii b

/-- Match a literal case-insensitively; returns the rest of the input. -/
def matchLitIcase : List Char → List Char → Option (List Char)
  | [], cs => some cs
  | _ :: _, [] => none
  | l :: ls, c :: cs => if icaseEqChar l c then matchLitIcase ls cs else none

/-- Match a literal exactly; returns the rest of the input. -/
def matchLit : List Char → List Char → Option (List Char)
  | [], cs => some cs
  | _ :: _, [] => none
  | l :: ls, c :: cs => if l == c then matchLit ls cs else none

/-- Python `str.strip()`: remove leading and trailing Python whitespace. -/
def pyStrip (cs : List Char) : List Char :=
  ((cs.dropWhile pyWs).reverse.dropWhile pyWs).reverse

/-- Python `str.splitlines()` (fuelled; fuel `≥ length` suffices, each step
consumes at least one character).  `"".splitlines() = []`, a trailing
break produces no empty final line, `\r\n` is one boundary. -/
def pySplitlinesF : Nat → List Char → List (List Char)
  | 0, _ => []
  | _ + 1, [] => []
  | f + 1, c :: rest =>
    let line := (c :: rest).takeWhile (fun x => !pyLineBreak x)
    let rest2 := (c :: rest).dropWhile (fun x => !pyLineBreak x)
    match rest2 with
    | [] => [line]
    | b :: rest' =>
      line :: pySplitlinesF f (if b == '\r' && rest'.head? == some '\n' then rest'.tail else rest')

def pySplitlines (cs : List Char) : List (List Char) := pySplitlinesF (cs.length + 1) cs

/-- The join `"\n".join(lines)`. -/
def joinNl : List (List Char) → List Char
  | [] => []
  | [l] => l
  | l :: ls => l ++ '\n' :: joinNl ls

/-!
### A generic `re.sub` driver

`m prev cs` attempts a match of the pattern at the position whose
remaining input is `cs`; `prev` is the character just before that
position (`none` at the start of the string), which is what the
lookbehinds and the `^` anchor of the source's patterns inspect.
On `some n` the match covers the next `n` characters.  The driver scans
left to right, replacing non-overlapping matches and resuming after
each match, exactly like `re.sub`.  (None of the source's patterns can
match the empty string, so the zero-width case never arises.)
-/

def pySubAll (m : Option Char → List Char → Option Nat) (repl : List Char) :
    Nat → Option Char → List Char → List Char
  | 0, _, cs => cs
  | _ + 1, _, [] => []
  | f + 1, prev, c :: rest =>
    match m prev (c :: rest) with
    | some n =>
      repl ++ pySubAll m repl f (some ((c :: rest).getD (n - 1) c)) (rest.drop (n - 1))
    | none => c :: pySubAll m repl f (some c) rest

/-- Python `re.sub(pattern, repl, text)` for a pattern embedded as matcher `m`. -/
def pySub (m : Option Char → List Char → Option Nat) (repl : List Char)
    (cs : List Char) : List Char :=
  pySubAll m repl (cs.length + 1) none cs

/-- The anchor `^` of a `re.MULTILINE` pattern: start of string or right after `\n`. -/
def atLineStart : Option Char → Bool
  | none => true
  | some c => c == '\n'

/-!
### `clean_brackets`

Source pattern: `r'\s[\[\(].*?[\]\)]'`, replaced by the empty string.
`.*?` is non-greedy and `.` does not match `\n`, so the bracketed run
ends at the first `]` or `)` and must not contain a newline.
-/

/-- Non-greedy scan of `.*?[\]\)]`: number of characters up to and
including the first closing bracket, failing on `\n` or end of input. -/
def seekCloser : List Char → Option Nat
  | [] => none
  | c :: rest =>
    if c == ']' || c == ')' then some 1
    else if c == '\n' then none
    else (seekCloser rest).map (· + 1)

def bracketsMatcher (_prev : Option Char) (cs : List Char) : Option Nat :=
  match cs with
  | c0 :: c1 :: rest =>
    if pyWs c0 && (c1 == '[' || c1 == '(') then
      (seekCloser rest).map (fun k => 2 + k)
    else none
  | _ => none

/-- Function `clean_brackets` from `newshour_transcript_cleanup.py`. -/
def clean_brackets (cs : List Char) : List Char :=
  pySub bracketsMatcher [] cs

/-!
### `SPEAKER_MARKER_PATTERN`

Source pattern (compiled with `re.MULTILINE`):

  `^((?:(?:Dr\.|Mr\.|Ms\.|Mrs\.|Prof\.|Pres\.|Gen\.|Rep\.|Sen\.|Gov\.|Mayor|President|Secretary)[ ]+)?[A-Z][A-Za-z \.'\-]+)(?:,[ ]*\([^)]+\)[^:\[\]]*|[ ]*\[[^\]]+\])*:[ ]*`

The matcher below reproduces the engine's behaviour at one position:
alternatives are tried in source order, greedy quantifiers longest
first, and the annotation star backtracks through the trailing
`[^:\[\]]*` run of a comma annotation (`tryTails`).  All other
quantifiers are deterministic because their character classes exclude
the character the following pattern part requires.
-/

def DOTTED_TITLES : List (List Char) :=
  ["Dr.".toList, "Mr.".toList, "Ms.".toList, "Mrs.".toList, "Prof.".toList,
   "Pres.".toList, "Gen.".toList, "Rep.".toList, "Sen.".toList, "Gov.".toList]

def MORE_TITLES : List (List Char) :=
  ["Mayor".toList, "President".toList, "Secretary".toList]

def SPEAKER_TITLES : List (List Char) := DOTTED_TITLES ++ MORE_TITLES

/-- The class `[A-Za-z \.'\-]` (name characters after the initial capital). -/
def isNameTailChar (c : Char) : Bool :=
  isAsciiAlpha c || c == ' ' || c == '.' || c == Char.ofNat 39 || c == '-'

/-- The class `[^:\[\]]` (trailing run of a comma annotation). -/
def isAnnTailChar (c : Char) : Bool := !(c == ':' || c == '[' || c == ']')

/-- Pattern `,[ ]*\([^)]+\)`: comma annotation core; returns the rest after `)`.
Deterministic: `[ ]*` stops at the required `(`, `[^)]+` at the
required `)`. -/
def commaAnn : List Char → Option (List Char)
  | ',' :: r1 =>
    match r1.dropWhile (· == ' ') with
    | '(' :: r3 =>
      if (r3.takeWhile (fun c => !(c == ')'))).isEmpty then none
      else
        match r3.dropWhile (fun c => !(c == ')')) with
        | ')' :: r4 => some r4
        | _ => none
    | _ => none
  | _ => none

/-- Pattern `[ ]*\[[^\]]+\]`: bracket annotation; returns the rest after `]`. -/
def bracketAnn (cs : List Char) : Option (List Char) :=
  match cs.dropWhile (· == ' ') with
  | '[' :: r2 =>
    if (r2.takeWhile (fun c => !(c == ']'))).isEmpty then none
    else
      match r2.dropWhile (fun c => !(c == ']')) with
      | ']' :: r3 => some r3
      | _ => none
  | _ => none

/-- Pattern `:[ ]*`: final colon and trailing same-line spaces. -/
def colonSpaces : List Char → Option (List Char)
  | ':' :: r => some (r.dropWhile (· == ' '))
  | _ => none

/-- Backtracking over the length of a greedy `[^:\[\]]*` run: try the
longest prefix first (`t` characters), then shorter ones, feeding the
remainder to the continuation `g`. -/
def tryTails (g : List Char → Option (List Char)) (rest0 : List Char) :
    Nat → Option (List Char)
  | 0 => g rest0
  | t + 1 => g (rest0.drop (t + 1)) <|> tryTails g rest0 t

/-- The annotation star followed by `:[ ]*`.  Tries one more annotation
iteration first (comma alternative before bracket alternative, as in the
source pattern), then exits the star into the colon.  Fuel bounds the
number of star iterations; each iteration consumes at least three
characters, so any fuel `≥ length + 1` is enough. -/
def annotsColon : Nat → List Char → Option (List Char)
  | 0, _ => none
  | f + 1, cs =>
    (match commaAnn cs with
     | some rest0 => tryTails (annotsColon f) rest0 (rest0.takeWhile isAnnTailChar).length
     | none => none)
    <|> (match bracketAnn cs with
         | some rest1 => annotsColon f rest1
         | none => none)
    <|> colonSpaces cs

/-- Pattern `[A-Z][A-Za-z \.'\-]+` then annotations then `:[ ]*`.  Returns the
captured name part and the rest after the whole match.  The greedy name
run never needs shortening: `,`, `[` and `:` are all outside the name
class, so they can only be met at the maximal run's boundary, and a
bracket annotation after a shortened run reaches the same `[` through
its `[ ]*` with an identical match end. -/
def nameAndAfter : List Char → Option (List Char × List Char)
  | [] => none
  | c0 :: r =>
    if isAsciiUpper c0 then
      let run := r.takeWhile isNameTailChar
      if run.isEmpty then none
      else
        match annotsColon (r.length + 1) (r.drop run.length) with
        | some rest => some (c0 :: run, rest)
        | none => none
    else none

/-- The optional title prefix `(?:(?:T1|…|T13)[ ]+)?` followed by the
name and the rest of the pattern: each title alternative is tried in
source order with the full continuation, and the empty alternative
(no title) comes last, matching the engine's backtracking order. -/
def titledNameAndAfter : List (List Char) → List Char → Option (List Char × List Char)
  | [], cs => nameAndAfter cs
  | t :: ts, cs =>
    (match matchLit t cs with
     | some r1 =>
       let sp := r1.takeWhile (· == ' ')
       if sp.isEmpty then none
       else
         match nameAndAfter (r1.drop sp.length) with
         | some (nm, rest) => some (t ++ sp ++ nm, rest)
         | none => none
     | none => none)
    <|> titledNameAndAfter ts cs

/-- Attempt `SPEAKER_MARKER_PATTERN` at one position (which the caller
has checked to be a line start).  Returns group 1 and the rest of the
input after the match. -/
def tryMarker (cs : List Char) : Option (List Char × List Char) :=
  titledNameAndAfter SPEAKER_TITLES cs

/-- Python `finditer` for `SPEAKER_MARKER_PATTERN`: non-overlapping matches in
document order, each as `(group 1, match start, match end)`.  `ls` says
whether the current position is a line start (`^` with `re.MULTILINE`);
after a match the scan resumes at the match end, which is never a line
start because a match ends in `:` or a space.  Fuel `≥ length + 1`
suffices (each step consumes at least one character). -/
def scanMarkersF : Nat → List Char → Nat → Bool → List (List Char × Nat × Nat)
  | 0, _, _, _ => []
  | _ + 1, [], _, _ => []
  | f + 1, c :: rest, i, ls =>
    if ls then
      match tryMarker (c :: rest) with
      | some (nm, after) =>
        (nm, i, i + ((c :: rest).length - after.length)) ::
          scanMarkersF f after (i + ((c :: rest).length - after.length)) false
      | none => scanMarkersF f rest (i + 1) (c == '\n')
    else scanMarkersF f rest (i + 1) (c == '\n')

def scanMarkers (t : List Char) : List (List Char × Nat × Nat) :=
  scanMarkersF (t.length + 1) t 0 true

/-- Function `normalize_speaker_name`: strip whitespace, spaces to underscores. -/
def normalize_speaker_name (name : List Char) : List Char :=
  (pyStrip name).map (fun c => if c == ' ' then '_' else c)

/-- The span-building fold of `extract_speaker_spans`: `sp`/`cstart` are
the pending `last_speaker`/`last_content_start`; each further match
closes the pending span at its start, and the final span closes at the
text length. -/
def spansGo (sp : List Char) (cstart : Nat) :
    List (List Char × Nat × Nat) → Nat → List (List Char × Nat × Nat)
  | [], len => [(sp, cstart, len)]
  | (nm, s, e) :: ms, len => (sp, cstart, s) :: spansGo (normalize_speaker_name nm) e ms len

def spansFromMatches : List (List Char × Nat × Nat) → Nat → List (List Char × Nat × Nat)
  | [], _ => []
  | (nm, _, e) :: ms, len => spansGo (normalize_speaker_name nm) e ms len

/-- Function `extract_speaker_spans` from `newshour_transcript_cleanup.py`. -/
def extract_speaker_spans (t : List Char) : List (List Char × Nat × Nat) :=
  spansFromMatches (scanMarkers t) t.length

/-- Function `split_by_speakers` from `newshour_transcript_cleanup.py`. -/
def split_by_speakers (speaker_spans : List (List Char × Nat × Nat))
    (char_start char_end : Nat) : List (List Char × Nat × Nat) :=
  speaker_spans.filterMap fun x =>
    if x.2.2 ≤ char_start || char_end ≤ x.2.1 then none
    else some (x.1, max x.2.1 char_start, min x.2.2 char_end)

/-!
### `clean_titles`

Two `re.sub` passes (both `re.MULTILINE | re.IGNORECASE`, both with
replacement `"\n"`):
  1. `^FOCUS\s*-.*`
  2. `^\s*(?:INTRO|NEWSMAKER|NEWS\s+SUMMARY|CONVERSATION|BRIG\.|RECAP)\s*$`
(The second pattern results from `re.escape(title).replace(r'\ ', r'\s+')`
over `SECTION_TITLES`.)
-/

/-- The section-title alternation, in source order, case-insensitively;
returns the number of characters consumed.  The alternatives are
pairwise exclusive at any one position (distinct first letters, and
after `NEWS` a letter `M` excludes `NEWS\s+SUMMARY`), so no alternation
backtracking is needed. -/
def matchTitleAlt (cs : List Char) : Option Nat :=
  match matchLitIcase "INTRO".toList cs with
  | some _ => some 5
  | none =>
  match matchLitIcase "NEWSMAKER".toList cs with
  | some _ => some 9
  | none =>
  match matchLitIcase "NEWS".toList cs with
  | some r1 =>
    let ws := r1.takeWhile pyWs
    if ws.isEmpty then none
    else
      match matchLitIcase "SUMMARY".toList (r1.drop ws.length) with
      | some _ => some (4 + ws.length + 7)
      | none => none
  | none =>
  match matchLitIcase "CONVERSATION".toList cs with
  | some _ => some 12
  | none =>
  match matchLitIcase "BRIG.".toList cs with
  | some _ => some 5
  | none =>
  match matchLitIcase "RECAP".toList cs with
  | some _ => some 5
  | none => none

/-- The anchor `$` of a `re.MULTILINE` pattern: end of input or just before `\n`. -/
def endOrNl (cs : List Char) : Bool :=
  match cs with
  | [] => true
  | c :: _ => c == '\n'

/-- Pattern `\s*$` after the title: greedy, so the largest `j` (number of
whitespace characters consumed, tried from the full run downwards)
at which `$` holds. -/
def titleTrailingEnd (rest1 : List Char) : Nat → Option Nat
  | 0 => if endOrNl rest1 then some 0 else none
  | j + 1 =>
    if endOrNl (rest1.drop (j + 1)) then some (j + 1) else titleTrailingEnd rest1 j

/-- The leading `\s*` of the title pattern is greedy: try consuming `k`
whitespace characters, largest first, and at each `k` the alternation
followed by `\s*$`. -/
def titlesTryFrom (cs : List Char) : Nat → Option Nat
  | 0 =>
    match matchTitleAlt cs with
    | some tl =>
      match titleTrailingEnd (cs.drop tl) ((cs.drop tl).takeWhile pyWs).length with
      | some j => some (tl + j)
      | none => none
    | none => none
  | k + 1 =>
    (match matchTitleAlt (cs.drop (k + 1)) with
     | some tl =>
       match titleTrailingEnd (cs.drop (k + 1 + tl))
           ((cs.drop (k + 1 + tl)).takeWhile pyWs).length with
       | some j => some (k + 1 + tl + j)
       | none => none
     | none => none)
    <|> titlesTryFrom cs k

def titlesMatcher (prev : Option Char) (cs : List Char) : Option Nat :=
  if atLineStart prev then titlesTryFrom cs (cs.takeWhile pyWs).length else none

/-- Pattern `^FOCUS\s*-.*`: the greedy `\s*` must end at the required `-`
(deterministic), `.*` runs to the end of the line. -/
def focusMatcher (prev : Option Char) (cs : List Char) : Option Nat :=
  if atLineStart prev then
    match matchLitIcase "FOCUS".toList cs with
    | some r1 =>
      let ws := r1.takeWhile pyWs
      match r1.drop ws.length with
      | '-' :: r2 => some (5 + ws.length + 1 + (r2.takeWhile (fun c => !(c == '\n'))).length)
      | _ => none
    | none => none
  else none

/-- Function `clean_titles` from `newshour_transcript_cleanup.py`. -/
def clean_titles (cs : List Char) : List Char :=
  pySub titlesMatcher ['\n'] (pySub focusMatcher ['\n'] cs)

/-!
### `clean_speakers`

Five `re.sub` passes, in source order:
  1. `(?<=[A-Z]),\s[a-zA-Z\.\'-,\s]*(?=:)`          → `""`
  2. `(?<=\n)(?i:Dr.|…|Gov.)\s`                     → `""`
  3. `\n([A-Za-z\d\'\"`#\-]+\s){0,3}[A-Za-z\d\'\"`#\-]+:`      → `" "`
  4. `(?=[\.\?\-\s])\s(?:([A-Za-z\d\'\"`#\-]+\s){0,3}[A-Za-z\d\'\"`#\-]+):(?!\.)` → `"\n"`
  5. `(?i:Dr.|…|Gov.)(?=\n)`                        → `""`

Passes 2 and 5 build their alternation with `'|'.join(DOTTED_TITLES)`
and — unlike `SPEAKER_MARKER_PATTERN` — do *not* `re.escape` the
titles, so each title's `.` is the regex wildcard: `Dr.` matches `Dry`,
`Gov.` matches `govt`, and so on (any character except a newline in the
dot position; the letters are case-insensitive).
-/

/-- Match one of the unescaped dotted titles at the current position:
letters case-insensitively, a `.` of the title as the regex wildcard
(any character except `\n`).  Returns the rest of the input. -/
def matchDotWildIcase : List Char → List Char → Option (List Char)
  | [], cs => some cs
  | _ :: _, [] => none
  | t :: ts, c :: cs =>
    if t == '.' then
      if c == '\n' then none else matchDotWildIcase ts cs
    else if icaseEqChar t c then matchDotWildIcase ts cs
    else none

/-- The class `[a-zA-Z\.\'-,\s]` of pass 1.  Inside the class, `\'-,`
is the *range* U+0027..U+002C, so `'`, `(`, `)`, `*`, `+`, `,` are all
members (checked against CPython). -/
def isIntroChar (c : Char) : Bool :=
  isAsciiAlpha c || c == '.' || (39 ≤ c.toNat && c.toNat ≤ 44) || pyWs c

/-- Pass 1: lookbehind a capital, then `,`, one whitespace, a greedy
class run, and a `(?=:)` lookahead (the colon is not consumed). -/
def introMatcher (prev : Option Char) (cs : List Char) : Option Nat :=
  match prev with
  | some p =>
    if isAsciiUpper p then
      match cs with
      | ',' :: w :: r2 =>
        if pyWs w then
          let run := r2.takeWhile isIntroChar
          match r2.drop run.length with
          | ':' :: _ => some (2 + run.length)
          | _ => none
        else none
      | _ => none
    else none
  | none => none

/-- Pass 2: each dotted title, in source order — its letters
case-insensitive and its unescaped `.` a wildcard — followed by one
consumed whitespace character; only directly after a `\n`.  A title
whose trailing `\s` fails backtracks to the next alternative. -/
def dottedNlMatcherGo : List (List Char) → List Char → Option Nat
  | [], _ => none
  | t :: ts, cs =>
    (match matchDotWildIcase t cs with
     | some (w :: _) => if pyWs w then some (t.length + 1) else none
     | _ => none)
    <|> dottedNlMatcherGo ts cs

def dottedNlMatcher (prev : Option Char) (cs : List Char) : Option Nat :=
  if prev == some '\n' then dottedNlMatcherGo DOTTED_TITLES cs else none

/-- The token class `[A-Za-z\d\'\"`#\-]` of passes 3 and 4. -/
def isTokChar (c : Char) : Bool :=
  isAsciiAlpha c || isAsciiDigit c || c == Char.ofNat 39 || c == Char.ofNat 34 ||
    c == Char.ofNat 96 || c == '#' || c == '-'

/-- Pattern `([tok]+\s){0,3}[tok]+:` with an optional `(?!\.)` after the colon:
greedy repetition (more iterations first), each iteration a maximal
token run plus a single whitespace character (deterministic, since the
token class excludes whitespace and `:`); returns the rest after the
colon.  Used by passes 3 and 4. -/
def spkFinal (noDotAfter : Bool) (cs : List Char) : Option (List Char) :=
  let run := cs.takeWhile isTokChar
  if run.isEmpty then none
  else
    match cs.drop run.length with
    | ':' :: r =>
      if noDotAfter && r.head? == some '.' then none else some r
    | _ => none

def spkSeq (noDotAfter : Bool) : Nat → List Char → Option (List Char)
  | 0, cs => spkFinal noDotAfter cs
  | b + 1, cs =>
    (let run := cs.takeWhile isTokChar
     if run.isEmpty then none
     else
       match cs.drop run.length with
       | w :: r =>
         if pyWs w then spkSeq noDotAfter b r else none
       | _ => none)
    <|> spkFinal noDotAfter cs

/-- Pass 3: `\n` then the token sequence and colon. -/
def newlineSpeakerMatcher (_prev : Option Char) (cs : List Char) : Option Nat :=
  match cs with
  | '\n' :: r =>
    match spkSeq false 3 r with
    | some rest => some (cs.length - rest.length)
    | none => none
  | _ => none

/-- Pass 4: `(?=[\.\?\-\s])\s` — the lookahead class plus the consumed
`\s` jointly require a whitespace character — then the token sequence,
colon, and `(?!\.)`. -/
def inlineSpeakerMatcher (_prev : Option Char) (cs : List Char) : Option Nat :=
  match cs with
  | c :: r =>
    if (c == '.' || c == '?' || c == '-' || pyWs c) && pyWs c then
      match spkSeq true 3 r with
      | some rest => some (cs.length - rest.length)
      | none => none
    else none
  | _ => none

/-- Pass 5: a dotted title — letters case-insensitive, its unescaped
`.` a wildcard — immediately before a `\n` (which is a lookahead and
not consumed). -/
def titleNlMatcherGo : List (List Char) → List Char → Option Nat
  | [], _ => none
  | t :: ts, cs =>
    (match matchDotWildIcase t cs with
     | some r1 => if r1.head? == some '\n' then some t.length else none
     | none => none)
    <|> titleNlMatcherGo ts cs

def titleNlMatcher (_prev : Option Char) (cs : List Char) : Option Nat :=
  titleNlMatcherGo DOTTED_TITLES cs

/-- Function `clean_speakers` from `newshour_transcript_cleanup.py`. -/
def clean_speakers (cs : List Char) : List Char :=
  pySub titleNlMatcher []
    (pySub inlineSpeakerMatcher ['\n']
      (pySub newlineSpeakerMatcher [' ']
        (pySub dottedNlMatcher []
          (pySub introMatcher [] cs))))

/-- The final line pass of `clean`:
`'\n'.join(line.strip() for line in text.splitlines())`. -/
def stripJoin (cs : List Char) : List Char :=
  joinNl ((pySplitlines cs).map pyStrip)

/-- Function `clean` from `newshour_transcript_cleanup.py`. -/
def clean (cs : List Char) : List Char :=
  stripJoin (clean_speakers (clean_brackets (clean_titles cs)))

/-!
### `guidhandler.get_aapb_guid_from`

Source: `re.search(r'(cpb-aacip[-_][a-z0-9-]+).', s)` followed by a
token-by-token trim of trailing purely-alphabetic segments.  (The `None`
input short-circuit of the Python signature is outside this model; the
model takes the string case.)
-/

def isGuidRunChar (c : Char) : Bool := isAsciiLower c || isAsciiDigit c || c == '-'

def GUID_TOKEN : List Char := "cpb-aacip".toList

/-- Attempt `(cpb-aacip[-_][a-z0-9-]+).` at one position and return
group 1: the literal token, one `-`/`_`, then a greedy nonempty run of
`[a-z0-9-]`; the final `.` must then consume one non-`\n` character.
When the run is followed by end of input or `\n`, the greedy `+` backs
off one character (then consumed by `.`), which needs a run of length at
least two. -/
def guidMatchAt (cs : List Char) : Option (List Char) :=
  match matchLit GUID_TOKEN cs with
  | some (sep :: r1) =>
    if sep == '-' || sep == '_' then
      let run := r1.takeWhile isGuidRunChar
      if run.isEmpty then none
      else
        match r1.drop run.length with
        | d :: _ =>
          if d == '\n' then
            if 2 ≤ run.length then some (GUID_TOKEN ++ sep :: run.dropLast) else none
          else some (GUID_TOKEN ++ sep :: run)
        | [] =>
          if 2 ≤ run.length then some (GUID_TOKEN ++ sep :: run.dropLast) else none
    else none
  | _ => none

/-- Python `re.search`: the match at the leftmost position where one exists. -/
def reSearchGuid : List Char → Option (List Char)
  | [] => none
  | c :: rest => guidMatchAt (c :: rest) <|> reSearchGuid rest

/-- Python `re.split(r'[-_]', s)` (fuelled; fuel `≥ length + 1` suffices). -/
def splitSepF : Nat → List Char → List (List Char)
  | 0, _ => []
  | f + 1, cs =>
    let part := cs.takeWhile (fun c => !(c == '-' || c == '_'))
    match cs.drop part.length with
    | [] => [part]
    | _ :: rest => part :: splitSepF f rest

def splitSep (cs : List Char) : List (List Char) := splitSepF (cs.length + 1) cs

/-- Python `str.isalpha`: nonempty and all alphabetic. -/
def pyIsAlpha (cs : List Char) : Bool := !cs.isEmpty && cs.all isAsciiAlpha

/-- The `for part in m_parts: if part.isalpha(): cur += 1 else: break`
loop: number of leading all-alphabetic parts. -/
def leadAlphaCount : List (List Char) → Nat
  | [] => 0
  | p :: ps => if pyIsAlpha p then 1 + leadAlphaCount ps else 0

/-- The token-by-token trim applied to group 1: split on `-`/`_`,
count trailing all-alphabetic parts, and keep the prefix of the group
whose length is `len(' '.join(kept reversed parts))` (separators are
single characters, so that length lands exactly at the end of the last
kept part). -/
def guidTrim (g : List Char) : List Char :=
  let parts := (splitSep g).reverse
  let kept := parts.drop (leadAlphaCount parts)
  let num := if kept.isEmpty then 0 else (kept.map List.length).sum + (kept.length - 1)
  g.take num

/-- Function `get_aapb_guid_from` from `guidhandler.py`. -/
def get_aapb_guid_from (s : List Char) : Option (List Char) :=
  match reSearchGuid s with
  | none => none
  | some g => some (guidTrim g)

/-- Written from the claim's words, for comparison with the code's
`guidTrim`: walk the hyphen/underscore-separated tokens from the right
and trim each purely-alphabetic token (with its preceding separator),
stopping at the first non-alphabetic token; `none` means every token,
including the leading one, was consumed.  (Fuelled; fuel `≥ length + 1`
suffices, each step passes a strictly shorter remainder.) -/
def specTrimR : Nat → List Char → Option (List Char)
  | 0, _ => none
  | f + 1, cs =>
    let tok := cs.takeWhile (fun c => !(c == '-' || c == '_'))
    match cs.drop tok.length with
    | [] => if pyIsAlpha tok then none else some tok
    | s :: r =>
      match specTrimR f r with
      | some kept => some (tok ++ s :: kept)
      | none => if pyIsAlpha tok then none else some tok

/-- The remaining prefix after the claim-side trim (empty when all
tokens are consumed). -/
def specGuidTrim (g : List Char) : List Char :=
  match specTrimR (g.length + 1) g with
  | some kept => kept
  | none => []

/-!
### Output-path conflict handling of the writing tools

File systems are modelled by the list of already-existing paths; each
tool's write is modelled by the path it actually opens for writing.

`converter_aapbjson.create_AAPB_json`:
    if os.path.exists(file_path):
        file_name, file_extension = os.path.splitext(file_path)
        count = 1
        while os.path.exists(f"{file_name}_{count}.json"): count += 1
        file_path = f"{file_name}_{count}.json"
    open(file_path, "w")

`newshour_transcript_cleanup.clean_and_write`:
    out_file = outdir / in_file.with_suffix(".txt").name
    ... open(out_file, 'w')      -- unconditionally
-/

/-- Python `os.path.splitext(p)[0]`: drop the extension, i.e. everything from
the last `.` of the final component on (a leading dot of the component
does not start an extension; this model keeps the common case of a
non-leading dot and otherwise returns the path unchanged). -/
def splitextRoot (p : List Char) : List Char :=
  let rev := p.reverse
  let afterDot := rev.takeWhile (fun c => !(c == '.' || c == '/'))
  match rev.drop afterDot.length with
  | '.' :: rest =>
    let baseBeforeDot := rest.takeWhile (fun c => !(c == '/'))
    if baseBeforeDot.all (fun c => c == '.') then p else rest.reverse
  | _ => p

/-- A numeral, via `Nat.toDigits`. -/
def natChars (n : Nat) : List Char := Nat.toDigits 10 n

/-- The suffixed candidate `f"{file_name}_{count}.json"`. -/
def suffixedName (root : List Char) (count : Nat) : List Char :=
  root ++ '_' :: natChars count ++ ".json".toList

/-- The `while os.path.exists(...)` search of `create_AAPB_json`,
starting at `count = 1` (fuelled; the Python loop is unbounded). -/
def firstFreshFrom (existing : List (List Char)) (root : List Char) :
    Nat → Nat → Option (List Char)
  | 0, _ => none
  | f + 1, count =>
    if existing.contains (suffixedName root count) then
      firstFreshFrom existing root f (count + 1)
    else some (suffixedName root count)

/-- The path `create_AAPB_json` opens for writing, given the set of
existing paths. -/
def create_AAPB_json_target (existing : List (List Char)) (file_path : List Char) :
    Option (List Char) :=
  if existing.contains file_path then
    firstFreshFrom existing (splitextRoot file_path) (existing.length + 1) 1
  else some file_path

/-- The path `clean_and_write` opens for writing for one input file:
the proposed output path, unconditionally (no existence check). -/
def clean_and_write_target (_existing : List (List Char)) (out_file : List Char) :
    List Char :=
  out_file

/-!
### Auxiliary notions used by the statements
-/

/-- The content start of the first remaining match, or the text length
when no match remains: the right bound of the span the fold is about to
close. -/
def firstStart (ms : List (List Char × Nat × Nat)) (len : Nat) : Nat :=
  match ms with
  | [] => len
  | m :: _ => m.2.1

/-- Character position `p` lies in one of the half-open ranges
`[start, end)` of the list. -/
def coveredBy (spans : List (List Char × Nat × Nat)) (p : Nat) : Prop :=
  ∃ x ∈ spans, x.2.1 ≤ p ∧ p < x.2.2

instance (spans : List (List Char × Nat × Nat)) (p : Nat) :
    Decidable (coveredBy spans p) := by
  unfold coveredBy
  infer_instance

/-!
### Reference formulations of the bracket-stripping contract

Two independent formulations of `clean_brackets`' per-position match,
used to compare the code against the specification's words.
-/

/-- Written from the claim's words: a whitespace character immediately
followed by a bracketed run delimited by `[...]` or `(...)` — i.e. the
opener is closed by the *matching* closer — with the shortest match per
scan position (the run ends at the first matching closer). -/
def claimBracketMatcher (_prev : Option Char) (cs : List Char) : Option Nat :=
  match cs with
  | c0 :: c1 :: rest =>
    if pyWs c0 then
      if c1 == '[' then (seekExact ']' rest).map (fun k => 2 + k)
      else if c1 == '(' then (seekExact ')' rest).map (fun k => 2 + k)
      else none
    else none
  | _ => none
where
  /-- Position just past the first occurrence of `close`. -/
  seekExact (close : Char) : List Char → Option Nat
    | [] => none
    | c :: rest => if c == close then some 1 else (seekExact close rest).map (fun k => k + 1)

/-- Removal of every claim-style occurrence, scanning left to right. -/
def claimBracketClean (cs : List Char) : List Char :=
  pySub claimBracketMatcher [] cs

/-- Written from the amended words: a whitespace character immediately
followed by an opening `[` or `(`, extending to the first subsequent
`]` or `)` — either closer, regardless of pairing — with no newline
strictly between the opener and that closer. -/
def amendedBracketMatcher (_prev : Option Char) (cs : List Char) : Option Nat :=
  match cs with
  | c0 :: c1 :: rest =>
    if pyWs c0 && (c1 == '[' || c1 == '(') then
      match rest.drop (rest.takeWhile (fun c => !(c == ']' || c == ')'))).length with
      | _ :: _ =>
        if (rest.takeWhile (fun c => !(c == ']' || c == ')'))).all (fun c => !(c == '\n'))
        then some (2 + (rest.takeWhile (fun c => !(c == ']' || c == ')'))).length + 1)
        else none
      | [] => none
    else none
  | _ => none

/-- Removal of every amended-style occurrence, scanning left to right. -/
def amendedBracketClean (cs : List Char) : List Char :=
  pySub amendedBracketMatcher [] cs

/-!
## Lemmas

### Length monotonicity of the substitution passes
-/

theorem opt_orElse_cases {α : Type} {a b : Option α} {x : α} (h : (a <|> b) = some x) :
    a = some x ∨ (a = none ∧ b = some x) := by
  cases a <;> simp_all [Option.orElse]

/-- Every substitution pass of the source replaces a match by at most
one character, and the driver consumes at least one character per step,
so no pass lengthens the text. -/
theorem pySubAll_length_le {m : Option Char → List Char → Option Nat} {repl : List Char}
    (hr : repl.length ≤ 1) :
    ∀ (f : Nat) (p : Option Char) (cs : List Char),
      (pySubAll m repl f p cs).length ≤ cs.length := by
  intro f
  induction f with
  | zero => intro p cs; simp [pySubAll]
  | succ f ih =>
    intro p cs
    cases cs with
    | nil => simp [pySubAll]
    | cons c rest =>
      simp only [pySubAll]
      cases hmc : m p (c :: rest) with
      | none =>
        have := ih (some c) rest
        simp only [List.length_cons]
        omega
      | some n =>
        have h2 := ih (some ((c :: rest).getD (n - 1) c)) (rest.drop (n - 1))
        simp only [List.length_drop] at h2
        simp only [List.length_append, List.length_cons]
        omega

theorem pySub_length_le {m : Option Char → List Char → Option Nat} {repl : List Char}
    (hr : repl.length ≤ 1) (cs : List Char) :
    (pySub m repl cs).length ≤ cs.length :=
  pySubAll_length_le hr _ _ _

theorem length_dropWhile_le (p : Char → Bool) (l : List Char) :
    (l.dropWhile p).length ≤ l.length := by
  induction l with
  | nil => simp
  | cons a l ih =>
    by_cases h : p a
    · simp only [List.dropWhile, h, if_true, List.length_cons]
      omega
    · simp [List.dropWhile, h]

theorem pyStrip_length_le (cs : List Char) : (pyStrip cs).length ≤ cs.length := by
  unfold pyStrip
  calc ((cs.dropWhile pyWs).reverse.dropWhile pyWs).reverse.length
      = ((cs.dropWhile pyWs).reverse.dropWhile pyWs).length := by simp
    _ ≤ (cs.dropWhile pyWs).reverse.length := length_dropWhile_le _ _
    _ = (cs.dropWhile pyWs).length := by simp
    _ ≤ cs.length := length_dropWhile_le _ _

theorem joinNl_length_cons_le (l : List Char) (ls : List (List Char)) :
    (joinNl (l :: ls)).length ≤ l.length + 1 + (joinNl ls).length := by
  cases ls with
  | nil => simp [joinNl]
  | cons x xs => simp [joinNl]; omega

theorem stripJoin_splitF_le :
    ∀ (f : Nat) (cs : List Char),
      (joinNl ((pySplitlinesF f cs).map pyStrip)).length ≤ cs.length := by
  intro f
  induction f with
  | zero => intro cs; simp [pySplitlinesF, joinNl]
  | succ f ih =>
    intro cs
    cases cs with
    | nil => simp [pySplitlinesF, joinNl]
    | cons c rest =>
      simp only [pySplitlinesF]
      have hsplit : ((c :: rest).takeWhile (fun x => !pyLineBreak x)).length
          + ((c :: rest).dropWhile (fun x => !pyLineBreak x)).length = rest.length + 1 := by
        rw [← List.length_append,
          List.takeWhile_append_dropWhile (fun x => !pyLineBreak x) (c :: rest)]
        simp
      cases hr2 : (c :: rest).dropWhile (fun x => !pyLineBreak x) with
      | nil =>
        have h5 : ((c :: rest).takeWhile (fun x => !pyLineBreak x)).length = rest.length + 1 := by
          rw [hr2] at hsplit
          simpa using hsplit
        simp only [List.map_cons, List.map_nil, joinNl]
        have h4 := pyStrip_length_le ((c :: rest).takeWhile (fun x => !pyLineBreak x))
        simp only [List.length_cons]
        omega
      | cons b rest' =>
        rw [hr2] at hsplit
        simp only [List.map_cons]
        have h1 := joinNl_length_cons_le (pyStrip ((c :: rest).takeWhile (fun x => !pyLineBreak x)))
          ((pySplitlinesF f (if b == '\r' && rest'.head? == some '\n' then rest'.tail else rest')).map pyStrip)
        have h2 := ih (if b == '\r' && rest'.head? == some '\n' then rest'.tail else rest')
        have h3 : (if b == '\r' && rest'.head? == some '\n' then rest'.tail else rest').length
            ≤ rest'.length := by
          by_cases hb : (b == '\r' && rest'.head? == some '\n') = true
          · simp only [hb, if_true, List.length_tail]
            omega
          · simp [hb]
        have h4 := pyStrip_length_le ((c :: rest).takeWhile (fun x => !pyLineBreak x))
        simp only [List.length_cons] at hsplit ⊢
        omega

theorem stripJoin_length_le (cs : List Char) : (stripJoin cs).length ≤ cs.length :=
  stripJoin_splitF_le _ _

theorem clean_titles_length_le (cs : List Char) : (clean_titles cs).length ≤ cs.length :=
  le_trans (pySub_length_le (by decide) _) (pySub_length_le (by decide) _)

theorem clean_brackets_length_le (cs : List Char) : (clean_brackets cs).length ≤ cs.length :=
  pySub_length_le (by decide) _

theorem clean_speakers_length_le (cs : List Char) : (clean_speakers cs).length ≤ cs.length :=
  le_trans (pySub_length_le (by decide) _)
    (le_trans (pySub_length_le (by decide) _)
      (le_trans (pySub_length_le (by decide) _)
        (le_trans (pySub_length_le (by decide) _) (pySub_length_le (by decide) _))))

/-- No stage of the cascade lengthens the text. -/
theorem clean_length_le (cs : List Char) : (clean cs).length ≤ cs.length :=
  le_trans (stripJoin_length_le _)
    (le_trans (clean_speakers_length_le _)
      (le_trans (clean_brackets_length_le _) (clean_titles_length_le _)))

/-!
### The marker matcher consumes at least one character
-/

theorem dropWhile_eq_cons_length {p : Char → Bool} {l xs : List Char} {x : Char}
    (h : l.dropWhile p = x :: xs) : xs.length < l.length := by
  have h1 := length_dropWhile_le p l
  rw [h] at h1
  simp only [List.length_cons] at h1
  omega

theorem matchLit_length_le :
    ∀ {lit cs r : List Char}, matchLit lit cs = some r → r.length ≤ cs.length := by
  intro lit
  induction lit with
  | nil =>
    intro cs r h
    simp only [matchLit, Option.some.injEq] at h
    exact le_of_eq (by rw [h])
  | cons l ls ih =>
    intro cs r h
    cases cs with
    | nil => simp [matchLit] at h
    | cons c cs' =>
      simp only [matchLit] at h
      split at h
      · have := ih h
        simp only [List.length_cons]
        omega
      · exact absurd h (by simp)

theorem matchLitIcase_length_le :
    ∀ {lit cs r : List Char}, matchLitIcase lit cs = some r → r.length ≤ cs.length := by
  intro lit
  induction lit with
  | nil =>
    intro cs r h
    simp only [matchLitIcase, Option.some.injEq] at h
    exact le_of_eq (by rw [h])
  | cons l ls ih =>
    intro cs r h
    cases cs with
    | nil => simp [matchLitIcase] at h
    | cons c cs' =>
      simp only [matchLitIcase] at h
      split at h
      · have := ih h
        simp only [List.length_cons]
        omega
      · exact absurd h (by simp)

theorem colonSpaces_length_lt {cs r : List Char} (h : colonSpaces cs = some r) :
    r.length < cs.length := by
  unfold colonSpaces at h
  split at h
  case _ r0 =>
    simp only [Option.some.injEq] at h
    subst h
    have h2 := length_dropWhile_le (fun x => x == ' ') r0
    simp only [List.length_cons]
    omega
  case _ => exact absurd h (by simp)

theorem commaAnn_length_lt {cs r : List Char} (h : commaAnn cs = some r) :
    r.length < cs.length := by
  unfold commaAnn at h
  split at h
  case _ r1 =>
    split at h
    case _ r3 heq =>
      split at h
      · exact absurd h (by simp)
      · split at h
        case _ r4 heq2 =>
          have h1 : r4.length < r3.length := dropWhile_eq_cons_length heq2
          have h2 : r3.length < r1.length := dropWhile_eq_cons_length heq
          cases h
          simp only [List.length_cons]
          omega
        case _ => exact absurd h (by simp)
    case _ => exact absurd h (by simp)
  case _ => exact absurd h (by simp)

theorem bracketAnn_length_lt {cs r : List Char} (h : bracketAnn cs = some r) :
    r.length < cs.length := by
  unfold bracketAnn at h
  split at h
  case _ r2 heq =>
    split at h
    · exact absurd h (by simp)
    · split at h
      case _ r3 heq2 =>
        have h1 : r3.length < r2.length := dropWhile_eq_cons_length heq2
        have h2 : r2.length < cs.length := dropWhile_eq_cons_length heq
        cases h
        omega
      case _ => exact absurd h (by simp)
  case _ => exact absurd h (by simp)

theorem tryTails_length_lt {g : List Char → Option (List Char)}
    (hg : ∀ cs r, g cs = some r → r.length < cs.length) :
    ∀ (t : Nat) (rest0 r : List Char), tryTails g rest0 t = some r → r.length < rest0.length := by
  intro t
  induction t with
  | zero => intro rest0 r h; exact hg _ _ h
  | succ t ih =>
    intro rest0 r h
    rcases opt_orElse_cases h with h1 | ⟨_, h2⟩
    · have := hg _ _ h1
      have h2 := length_dropWhile_le (fun _ => true) rest0
      have h3 : (rest0.drop (t + 1)).length ≤ rest0.length := by
        simp [List.length_drop]
      omega
    · exact ih _ _ h2

theorem annotsColon_length_lt :
    ∀ (f : Nat) (cs r : List Char), annotsColon f cs = some r → r.length < cs.length := by
  intro f
  induction f with
  | zero => intro cs r h; simp [annotsColon] at h
  | succ f ih =>
    intro cs r h
    simp only [annotsColon] at h
    rcases opt_orElse_cases h with h1 | ⟨_, h23⟩
    · split at h1
      case _ rest0 heq =>
        have hlt := tryTails_length_lt (fun cs r hr => ih cs r hr) _ _ _ h1
        have := commaAnn_length_lt heq
        omega
      case _ => exact absurd h1 (by simp)
    · rcases opt_orElse_cases h23 with h2 | ⟨_, h3⟩
      · split at h2
        case _ rest1 heq =>
          have := ih _ _ h2
          have := bracketAnn_length_lt heq
          omega
        case _ => exact absurd h2 (by simp)
      · exact colonSpaces_length_lt h3

theorem nameAndAfter_length_lt {cs nm rest : List Char}
    (h : nameAndAfter cs = some (nm, rest)) : rest.length < cs.length := by
  cases cs with
  | nil => simp [nameAndAfter] at h
  | cons c0 r =>
    simp only [nameAndAfter] at h
    split at h
    · split at h
      · exact absurd h (by simp)
      · split at h
        case _ rr heq =>
          have h1 := annotsColon_length_lt _ _ _ heq
          have h2 : (r.drop (r.takeWhile isNameTailChar).length).length ≤ r.length := by
            simp [List.length_drop]
          cases h
          simp only [List.length_cons]
          omega
        case _ => exact absurd h (by simp)
    · exact absurd h (by simp)

theorem titledNameAndAfter_length_lt :
    ∀ (ts : List (List Char)) {cs nm rest : List Char},
      titledNameAndAfter ts cs = some (nm, rest) → rest.length < cs.length := by
  intro ts
  induction ts with
  | nil => intro cs nm rest h; exact nameAndAfter_length_lt h
  | cons t ts ih =>
    intro cs nm rest h
    simp only [titledNameAndAfter] at h
    rcases opt_orElse_cases h with h1 | ⟨_, h2⟩
    · split at h1
      case _ r1 heq =>
        split at h1
        · exact absurd h1 (by simp)
        · split at h1
          case _ nm0 rest0 heq2 =>
            have hlt := nameAndAfter_length_lt heq2
            have hle := matchLit_length_le heq
            have hdr : (r1.drop (r1.takeWhile (· == ' ')).length).length ≤ r1.length := by
              simp [List.length_drop]
            cases h1
            omega
          case _ => exact absurd h1 (by simp)
      case _ => exact absurd h1 (by simp)
    · exact ih h2

theorem tryMarker_length_lt {cs nm rest : List Char}
    (h : tryMarker cs = some (nm, rest)) : rest.length < cs.length :=
  titledNameAndAfter_length_lt _ h

/-!
### Scanner invariants: `finditer` matches are bounded, ordered,
non-overlapping and separated by at least one character
-/

theorem scanMarkersF_good :
    ∀ (f : Nat) (cs : List Char) (i : Nat) (ls : Bool),
      (∀ x ∈ scanMarkersF f cs i ls,
        (ls = false → i + 1 ≤ x.2.1) ∧ i ≤ x.2.1 ∧ x.2.1 < x.2.2 ∧ x.2.2 ≤ i + cs.length) ∧
      List.Chain' (fun a b : List Char × Nat × Nat => a.2.2 < b.2.1) (scanMarkersF f cs i ls) := by
  intro f
  induction f with
  | zero => intro cs i ls; simp [scanMarkersF]
  | succ f ih =>
    intro cs i ls
    cases cs with
    | nil => simp [scanMarkersF]
    | cons c rest =>
      cases ls with
      | false =>
        have hdef : scanMarkersF (f + 1) (c :: rest) i false
            = scanMarkersF f rest (i + 1) (c == '\n') := by
          simp [scanMarkersF]
        rw [hdef]
        obtain ⟨ihb, ihc⟩ := ih rest (i + 1) (c == '\n')
        refine ⟨fun x hx => ?_, ihc⟩
        obtain ⟨_, h1, h2, h3⟩ := ihb x hx
        simp only [List.length_cons]
        exact ⟨fun _ => h1, by omega, h2, by omega⟩
      | true =>
        cases hm : tryMarker (c :: rest) with
        | none =>
          have hdef : scanMarkersF (f + 1) (c :: rest) i true
              = scanMarkersF f rest (i + 1) (c == '\n') := by
            simp [scanMarkersF, hm]
          rw [hdef]
          obtain ⟨ihb, ihc⟩ := ih rest (i + 1) (c == '\n')
          refine ⟨fun x hx => ?_, ihc⟩
          obtain ⟨_, h1, h2, h3⟩ := ihb x hx
          simp only [List.length_cons]
          exact ⟨fun hls => Bool.noConfusion hls, by omega, h2, by omega⟩
        | some p =>
          obtain ⟨nm, after⟩ := p
          have hdef : scanMarkersF (f + 1) (c :: rest) i true
              = (nm, i, i + ((c :: rest).length - after.length)) ::
                  scanMarkersF f after (i + ((c :: rest).length - after.length)) false := by
            simp [scanMarkersF, hm]
          rw [hdef]
          have hlt := tryMarker_length_lt hm
          obtain ⟨ihb, ihc⟩ := ih after (i + ((c :: rest).length - after.length)) false
          constructor
          · intro x hx
            rcases List.mem_cons.mp hx with hx1 | hx2
            · subst hx1
              simp only [List.length_cons] at hlt ⊢
              exact ⟨fun hls => Bool.noConfusion hls, le_refl _, by omega, by omega⟩
            · obtain ⟨hf, h1, h2, h3⟩ := ihb x hx2
              have hf1 := hf rfl
              simp only [List.length_cons] at hlt h3 ⊢
              exact ⟨fun hls => Bool.noConfusion hls, by omega, h2, by omega⟩
          · rw [List.chain'_cons']
            refine ⟨fun b hb => ?_, ihc⟩
            have hbmem : b ∈ scanMarkersF f after (i + ((c :: rest).length - after.length)) false :=
              List.mem_of_mem_head? hb
            obtain ⟨hf, _, _, _⟩ := ihb b hbmem
            have := hf rfl
            simp only []
            omega

theorem scanMarkers_good (t : List Char) :
    (∀ x ∈ scanMarkers t, x.2.1 < x.2.2 ∧ x.2.2 ≤ t.length) ∧
    List.Chain' (fun a b : List Char × Nat × Nat => a.2.2 < b.2.1) (scanMarkers t) := by
  obtain ⟨hb, hc⟩ := scanMarkersF_good (t.length + 1) t 0 true
  exact ⟨fun x hx => ⟨(hb x hx).2.2.1, by simpa using (hb x hx).2.2.2⟩, hc⟩

/-!
### The span-building fold
-/

theorem spansGo_eq (sp : List Char) (cstart : Nat) (ms : List (List Char × Nat × Nat))
    (len : Nat) :
    spansGo sp cstart ms len = (sp, cstart, firstStart ms len) :: spansFromMatches ms len := by
  cases ms with
  | nil => rfl
  | cons m ms' =>
    obtain ⟨nm, s, e⟩ := m
    rfl

theorem spansFromMatches_cons (m : List Char × Nat × Nat) (ms : List (List Char × Nat × Nat))
    (len : Nat) :
    spansFromMatches (m :: ms) len
      = (normalize_speaker_name m.1, m.2.2, firstStart ms len) :: spansFromMatches ms len := by
  obtain ⟨nm, s, e⟩ := m
  show spansGo (normalize_speaker_name nm) e ms len = _
  exact spansGo_eq _ _ _ _

theorem spansFromMatches_length (ms : List (List Char × Nat × Nat)) (len : Nat) :
    (spansFromMatches ms len).length = ms.length := by
  induction ms with
  | nil => rfl
  | cons m ms' ih => rw [spansFromMatches_cons]; simp [ih]

theorem coveredBy_cons {a : List Char × Nat × Nat} {l : List (List Char × Nat × Nat)} {p : Nat} :
    coveredBy (a :: l) p ↔ (a.2.1 ≤ p ∧ p < a.2.2) ∨ coveredBy l p := by
  unfold coveredBy
  constructor
  · rintro ⟨x, hx, h1, h2⟩
    rcases List.mem_cons.mp hx with rfl | hx'
    · exact Or.inl ⟨h1, h2⟩
    · exact Or.inr ⟨x, hx', h1, h2⟩
  · rintro (⟨h1, h2⟩ | ⟨x, hx, h1, h2⟩)
    · exact ⟨a, List.mem_cons_self _ _, h1, h2⟩
    · exact ⟨x, List.mem_cons_of_mem _ hx, h1, h2⟩

/-- In a chain of strictly separated markers, every later marker starts
strictly after the first one ends. -/
theorem chain_lt_all :
    ∀ (ms : List (List Char × Nat × Nat)) (m : List Char × Nat × Nat),
      (∀ x ∈ ms, x.2.1 < x.2.2) →
      List.Chain' (fun a b : List Char × Nat × Nat => a.2.2 < b.2.1) (m :: ms) →
      ∀ y ∈ ms, m.2.2 < y.2.1 := by
  intro ms
  induction ms with
  | nil => simp
  | cons m2 ms' ih =>
    intro m hb hc y hy
    have h1 : m.2.2 < m2.2.1 := (List.chain'_cons.mp hc).1
    rcases List.mem_cons.mp hy with rfl | hy'
    · exact h1
    · have h2 := ih m2 (fun x hx => hb x (List.mem_cons_of_mem _ hx)) (List.chain'_cons.mp hc).2
        y hy'
      have h3 : m2.2.1 < m2.2.2 := hb m2 (List.mem_cons_self _ _)
      omega

theorem spans_bounds :
    ∀ (ms : List (List Char × Nat × Nat)) (len : Nat),
      (∀ x ∈ ms, x.2.1 < x.2.2 ∧ x.2.2 ≤ len) →
      List.Chain' (fun a b : List Char × Nat × Nat => a.2.2 < b.2.1) ms →
      ∀ y ∈ spansFromMatches ms len, y.2.1 ≤ y.2.2 ∧ y.2.2 ≤ len := by
  intro ms
  induction ms with
  | nil => simp [spansFromMatches]
  | cons m ms' ih =>
    intro len hb hc y hy
    rw [spansFromMatches_cons] at hy
    rcases List.mem_cons.mp hy with rfl | hy'
    · obtain ⟨hm1, hm2⟩ := hb m (List.mem_cons_self _ _)
      cases ms' with
      | nil => exact ⟨by simpa [firstStart] using hm2, by simp [firstStart]⟩
      | cons m2 ms'' =>
        have h1 : m.2.2 < m2.2.1 := (List.chain'_cons.mp hc).1
        obtain ⟨h2, h3⟩ := hb m2 (List.mem_cons_of_mem _ (List.mem_cons_self _ _))
        exact ⟨by simp [firstStart]; omega, by simp [firstStart]; omega⟩
    · exact ih len (fun x hx => hb x (List.mem_cons_of_mem _ hx)) hc.tail y hy'

theorem spans_chain :
    ∀ (ms : List (List Char × Nat × Nat)) (len : Nat),
      (∀ x ∈ ms, x.2.1 < x.2.2 ∧ x.2.2 ≤ len) →
      List.Chain' (fun a b : List Char × Nat × Nat => a.2.2 < b.2.1) ms →
      List.Chain' (fun a b : List Char × Nat × Nat => a.2.2 ≤ b.2.1)
        (spansFromMatches ms len) := by
  intro ms
  induction ms with
  | nil => simp [spansFromMatches]
  | cons m ms' ih =>
    intro len hb hc
    rw [spansFromMatches_cons]
    rw [List.chain'_cons']
    refine ⟨?_, ih len (fun x hx => hb x (List.mem_cons_of_mem _ hx)) hc.tail⟩
    intro b hbmem
    cases ms' with
    | nil => simp [spansFromMatches] at hbmem
    | cons m2 ms'' =>
      rw [spansFromMatches_cons] at hbmem
      simp only [List.head?_cons, Option.mem_def, Option.some.injEq] at hbmem
      subst hbmem
      have h2 : m2.2.1 < m2.2.2 := (hb m2 (List.mem_cons_of_mem _ (List.mem_cons_self _ _))).1
      simp [firstStart]
      omega

theorem spans_getLast :
    ∀ (ms : List (List Char × Nat × Nat)) (len : Nat) (m' : List Char × Nat × Nat),
      ms.getLast? = some m' →
      (spansFromMatches ms len).getLast?
        = some (normalize_speaker_name m'.1, m'.2.2, len) := by
  intro ms
  induction ms with
  | nil => intro len m' h; simp at h
  | cons m ms' ih =>
    intro len m' h
    cases ms' with
    | nil =>
      simp only [List.getLast?_singleton, Option.some.injEq] at h
      subst h
      rw [spansFromMatches_cons]
      simp [spansFromMatches, firstStart]
    | cons m2 ms'' =>
      rw [List.getLast?_cons_cons] at h
      have := ih len m' h
      rw [spansFromMatches_cons, spansFromMatches_cons]
      rw [spansFromMatches_cons] at this
      rw [List.getLast?_cons_cons]
      exact this

/-- Pointwise coverage: the spans cover exactly the interval from the
first match's content start to the end of the text, minus the later
matches' own ranges. -/
theorem spans_cover :
    ∀ (ms : List (List Char × Nat × Nat)) (m : List Char × Nat × Nat) (len : Nat),
      (∀ x ∈ m :: ms, x.2.1 < x.2.2 ∧ x.2.2 ≤ len) →
      List.Chain' (fun a b : List Char × Nat × Nat => a.2.2 < b.2.1) (m :: ms) →
      ∀ p : Nat, coveredBy (spansFromMatches (m :: ms) len) p ↔
        (m.2.2 ≤ p ∧ p < len ∧ ¬ coveredBy ms p) := by
  intro ms
  induction ms with
  | nil =>
    intro m len hb _ p
    rw [spansFromMatches_cons]
    simp only [spansFromMatches, coveredBy_cons, firstStart]
    have h1 := hb m (List.mem_cons_self _ _)
    simp [coveredBy]
  | cons m2 ms' ih =>
    intro m len hb hc p
    rw [spansFromMatches_cons, coveredBy_cons]
    have hb2 : ∀ x ∈ m2 :: ms', x.2.1 < x.2.2 ∧ x.2.2 ≤ len :=
      fun x hx => hb x (List.mem_cons_of_mem _ hx)
    have hc2 : List.Chain' (fun a b : List Char × Nat × Nat => a.2.2 < b.2.1) (m2 :: ms') :=
      hc.tail
    have hm12 : m.2.2 < m2.2.1 := (List.chain'_cons.mp hc).1
    have hlow : ∀ y ∈ ms', m2.2.2 < y.2.1 :=
      chain_lt_all ms' m2 (fun x hx => (hb2 x (List.mem_cons_of_mem _ hx)).1) hc2
    obtain ⟨hm2a, hm2b⟩ := hb2 m2 (List.mem_cons_self _ _)
    have ihp := ih m2 len hb2 hc2 p
    simp only [firstStart]
    constructor
    · rintro (⟨h1, h2⟩ | hsp)
      · refine ⟨h1, by omega, ?_⟩
        rw [coveredBy_cons]
        rintro (⟨ha, hb'⟩ | hcv)
        · omega
        · obtain ⟨y, hy, hy1, hy2⟩ := hcv
          have := hlow y hy
          omega
      · obtain ⟨h1, h2, h3⟩ := ihp.mp hsp
        refine ⟨by omega, h2, ?_⟩
        rw [coveredBy_cons]
        rintro (⟨ha, hb'⟩ | hcv)
        · omega
        · exact h3 hcv
    · rintro ⟨h1, h2, h3⟩
      rw [coveredBy_cons] at h3
      push_neg at h3
      obtain ⟨h3a, h3b⟩ := h3
      by_cases hp : p < m2.2.1
      · exact Or.inl ⟨h1, hp⟩
      · refine Or.inr (ihp.mpr ⟨?_, h2, h3b⟩)
        omega

theorem spans_getD_start :
    ∀ (ms : List (List Char × Nat × Nat)) (len : Nat) (j : Nat), j < ms.length →
      ((spansFromMatches ms len).getD j ([], 0, 0)).2.1 = (ms.getD j ([], 0, 0)).2.2 ∧
      ((spansFromMatches ms len).getD j ([], 0, 0)).1
        = normalize_speaker_name (ms.getD j ([], 0, 0)).1 := by
  intro ms
  induction ms with
  | nil => intro len j hj; simp at hj
  | cons m ms' ih =>
    intro len j hj
    rw [spansFromMatches_cons]
    cases j with
    | zero => simp
    | succ j =>
      simp only [List.getD_cons_succ]
      exact ih len j (by simpa using hj)

theorem chain_getD {R : (List Char × Nat × Nat) → (List Char × Nat × Nat) → Prop} :
    ∀ (l : List (List Char × Nat × Nat)), List.Chain' R l →
      ∀ j : Nat, j + 1 < l.length → R (l.getD j ([], 0, 0)) (l.getD (j + 1) ([], 0, 0)) := by
  intro l
  induction l with
  | nil => intro _ j hj; simp at hj
  | cons m l' ih =>
    intro hc j hj
    cases l' with
    | nil => simp at hj
    | cons m2 l'' =>
      cases j with
      | zero =>
        simp only [List.getD_cons_zero, List.getD_cons_succ]
        exact (List.chain'_cons.mp hc).1
      | succ j =>
        simp only [List.getD_cons_succ]
        exact ih hc.tail j (by simpa using hj)

theorem spans_getD_end :
    ∀ (ms : List (List Char × Nat × Nat)) (len : Nat) (j : Nat), j + 1 < ms.length →
      ((spansFromMatches ms len).getD j ([], 0, 0)).2.2
        = (ms.getD (j + 1) ([], 0, 0)).2.1 := by
  intro ms
  induction ms with
  | nil => intro len j hj; simp at hj
  | cons m ms' ih =>
    intro len j hj
    rw [spansFromMatches_cons]
    cases j with
    | zero =>
      cases ms' with
      | nil => simp at hj
      | cons m2 ms'' => simp [firstStart]
    | succ j =>
      simp only [List.getD_cons_succ]
      exact ih len j (by simpa using hj)

/-!
## Claim theorems
-/

/-- C1 counterexample: for the two-marker transcript `"AB: x\nCD: y"`
the claimed partition fails: position 7 lies in
`[first content start, len) = [4, 11)` but inside no extracted span —
the second marker's own range `[6, 10)` is a gap. -/
theorem C1_union_partition_cex :
    extract_speaker_spans "AB: x\nCD: y".toList
      = [("AB".toList, 4, 6), ("CD".toList, 10, 11)] ∧
    scanMarkers "AB: x\nCD: y".toList
      = [("AB".toList, 0, 4), ("CD".toList, 6, 10)] ∧
    (4 ≤ 7 ∧ 7 < "AB: x\nCD: y".toList.length) ∧
    ¬ coveredBy (extract_speaker_spans "AB: x\nCD: y".toList) 7 := by
  refine ⟨by decide, by decide, by decide, by decide⟩

/-- C1 (amended): for a transcript whose marker list is `m :: ms`, the
extracted spans are pairwise non-overlapping and ordered, and their
union is exactly `[m's content start, len(text))` minus the later
markers' own match ranges: position `p` is covered iff
`m.end ≤ p < len` and `p` lies in no later marker's `[start, end)`. -/
theorem C1_union_partition (t : List Char) (m : List Char × Nat × Nat)
    (ms : List (List Char × Nat × Nat)) (h : scanMarkers t = m :: ms) :
    List.Chain' (fun a b : List Char × Nat × Nat => a.2.2 ≤ b.2.1)
      (extract_speaker_spans t) ∧
    ∀ p : Nat, coveredBy (extract_speaker_spans t) p ↔
      (m.2.2 ≤ p ∧ p < t.length ∧ ¬ coveredBy ms p) := by
  obtain ⟨hb, hc⟩ := scanMarkers_good t
  rw [h] at hb hc
  constructor
  · have hch := spans_chain (m :: ms) t.length hb hc
    show List.Chain' _ (spansFromMatches (scanMarkers t) t.length)
    rw [h]
    exact hch
  · intro p
    have hcv := spans_cover ms m t.length hb hc p
    show coveredBy (spansFromMatches (scanMarkers t) t.length) p ↔ _
    rw [h]
    exact hcv

/-- C1 witness: the amended coverage equivalence instantiated at the
two-marker transcript and position 7. -/
theorem C1_union_partition_witness :
    coveredBy (extract_speaker_spans "AB: x\nCD: y".toList) 7 ↔
      (4 ≤ 7 ∧ 7 < "AB: x\nCD: y".toList.length ∧
        ¬ coveredBy [("CD".toList, 6, 10)] 7) :=
  (C1_union_partition "AB: x\nCD: y".toList ("AB".toList, 0, 4)
    [("CD".toList, 6, 10)] (by decide)).2 7

/-- C4 counterexample: on the transcript `"AB:"`, which ends exactly at
the marker, the final span is `("AB", 3, 3)`, so `end_char` is not
strictly greater than `start_char`. -/
theorem C4_span_invariants_cex :
    extract_speaker_spans "AB:".toList = [("AB".toList, 3, 3)] ∧
    ¬ (∀ x ∈ extract_speaker_spans "AB:".toList, x.2.1 < x.2.2) := by
  refine ⟨by decide, by decide⟩

/-- C4 (amended): every extracted span has `start_char ≤ end_char`
(the inequality is strict for every non-final span, and can fail to be
strict only for the final span, which is empty when the text ends at
its marker) and `end_char ≤ len(text)`; spans appear in document order
(each span ends no later than the next begins); there is exactly one
span per marker match, so consecutive spans of the same speaker are
never merged; each span's start is the end offset of its marker's
match; and the final span ends at `len(text)`.  Starts are
non-negative by the `Nat` representation. -/
theorem C4_span_invariants (t : List Char) :
    (extract_speaker_spans t).length = (scanMarkers t).length ∧
    (∀ x ∈ extract_speaker_spans t, x.2.1 ≤ x.2.2 ∧ x.2.2 ≤ t.length) ∧
    (∀ j : Nat, j + 1 < (scanMarkers t).length →
      ((extract_speaker_spans t).getD j ([], 0, 0)).2.1
        < ((extract_speaker_spans t).getD j ([], 0, 0)).2.2) ∧
    List.Chain' (fun a b : List Char × Nat × Nat => a.2.2 ≤ b.2.1)
      (extract_speaker_spans t) ∧
    (∀ j : Nat, j < (scanMarkers t).length →
      ((extract_speaker_spans t).getD j ([], 0, 0)).2.1
        = ((scanMarkers t).getD j ([], 0, 0)).2.2) ∧
    (∀ m' : List Char × Nat × Nat, (scanMarkers t).getLast? = some m' →
      (extract_speaker_spans t).getLast?
        = some (normalize_speaker_name m'.1, m'.2.2, t.length)) := by
  obtain ⟨hb, hc⟩ := scanMarkers_good t
  refine ⟨spansFromMatches_length _ _,
    spans_bounds _ _ hb hc,
    ?_,
    spans_chain _ _ hb hc,
    fun j hj => (spans_getD_start _ _ j hj).1,
    fun m' hm' => spans_getLast _ _ _ hm'⟩
  intro j hj
  show ((spansFromMatches (scanMarkers t) t.length).getD j ([], 0, 0)).2.1
      < ((spansFromMatches (scanMarkers t) t.length).getD j ([], 0, 0)).2.2
  rw [(spans_getD_start (scanMarkers t) t.length j (by omega)).1,
    spans_getD_end (scanMarkers t) t.length j hj]
  exact chain_getD (scanMarkers t) hc j hj

/-- C4 witness: the amended invariants instantiated concretely: on the
two-marker transcript the non-final span `("AB", 4, 6)` is strictly
nonempty, and on `"AB:"` the single span starts at its marker's match
end and the final span ends at the text length. -/
theorem C4_span_invariants_witness :
    ((extract_speaker_spans "AB: x\nCD: y".toList).getD 0 ([], 0, 0)).2.1
      < ((extract_speaker_spans "AB: x\nCD: y".toList).getD 0 ([], 0, 0)).2.2 ∧
    ((extract_speaker_spans "AB:".toList).getD 0 ([], 0, 0)).2.1
      = ((scanMarkers "AB:".toList).getD 0 ([], 0, 0)).2.2 ∧
    (extract_speaker_spans "AB:".toList).getLast?
      = some (normalize_speaker_name "AB".toList, 3, "AB:".toList.length) :=
  ⟨(C4_span_invariants "AB: x\nCD: y".toList).2.2.1 0 (by decide),
   (C4_span_invariants "AB:".toList).2.2.2.2.1 0 (by decide),
   (C4_span_invariants "AB:".toList).2.2.2.2.2 ("AB".toList, 0, 3) (by decide)⟩

/-- C10: every extracted span satisfies `0 ≤ start ≤ end ≤ len(text)`
(`0 ≤ start` holds by the `Nat` representation), consecutive spans do
not overlap, and the inequality `start ≤ end` is not strict: when the
text ends exactly at the final marker's match, the final span is empty
with `start = end = len(text)`. -/
theorem C10_span_bounds_nonstrict (t : List Char) :
    (∀ x ∈ extract_speaker_spans t, x.2.1 ≤ x.2.2 ∧ x.2.2 ≤ t.length) ∧
    List.Chain' (fun a b : List Char × Nat × Nat => a.2.2 ≤ b.2.1)
      (extract_speaker_spans t) ∧
    (∀ m' : List Char × Nat × Nat,
      (scanMarkers t).getLast? = some m' → m'.2.2 = t.length →
      (extract_speaker_spans t).getLast?
        = some (normalize_speaker_name m'.1, t.length, t.length)) := by
  obtain ⟨hb, hc⟩ := scanMarkers_good t
  refine ⟨spans_bounds _ _ hb hc, spans_chain _ _ hb hc, ?_⟩
  intro m' h1 h2
  have := spans_getLast (scanMarkers t) t.length m' h1
  rw [h2] at this
  exact this

/-- C10 witness: on `"AB:"` the text ends at the marker and the final
span is the empty range `[3, 3)` at the text length. -/
theorem C10_span_bounds_nonstrict_witness :
    (extract_speaker_spans "AB:".toList).getLast?
      = some (normalize_speaker_name "AB".toList, "AB:".toList.length,
          "AB:".toList.length) :=
  (C10_span_bounds_nonstrict "AB:".toList).2.2 ("AB".toList, 0, 3) (by decide) (by decide)

/-!
### `clean_brackets` versus the stated contract
-/

theorem drop_length_takeWhile (p : Char → Bool) (l : List Char) :
    l.drop (l.takeWhile p).length = l.dropWhile p := by
  induction l with
  | nil => rfl
  | cons a l ih =>
    by_cases h : p a = true
    · simp [List.takeWhile_cons, List.dropWhile_cons, h, ih]
    · simp [List.takeWhile_cons, List.dropWhile_cons, h]

theorem seekCloser_of_dropWhile_nil {l : List Char}
    (h : l.dropWhile (fun c => !(c == ']' || c == ')')) = []) : seekCloser l = none := by
  induction l with
  | nil => rfl
  | cons c rest ih =>
    rw [List.dropWhile_cons] at h
    by_cases hcl : (!(c == ']' || c == ')')) = true
    · rw [if_pos hcl] at h
      have hcl' : (c == ']' || c == ')') = false := by simpa using hcl
      simp only [seekCloser, hcl']
      rw [if_neg (by simp)]
      by_cases hnl : (c == '\n') = true
      · rw [if_pos hnl]
      · rw [if_neg hnl, ih h]
        rfl
    · rw [if_neg hcl] at h
      exact absurd h (by simp)

theorem bool_not_not {b : Bool} (h : ¬ (!b) = true) : b = true := by
  cases b <;> simp_all

theorem bool_neg_true {b : Bool} (h : (!b) = true) : b = false := by
  cases b <;> simp_all

theorem seekCloser_of_dropWhile_cons {l : List Char} {y : Char} {ys : List Char}
    (h : l.dropWhile (fun c => !(c == ']' || c == ')')) = y :: ys) :
    seekCloser l =
      if (l.takeWhile (fun c => !(c == ']' || c == ')'))).all (fun c => !(c == '\n'))
      then some ((l.takeWhile (fun c => !(c == ']' || c == ')'))).length + 1)
      else none := by
  induction l with
  | nil => simp at h
  | cons c rest ih =>
    rw [List.dropWhile_cons] at h
    by_cases hcl : (!(c == ']' || c == ')')) = true
    · rw [if_pos hcl] at h
      have hcl' : (c == ']' || c == ')') = false := bool_neg_true hcl
      simp only [seekCloser, hcl']
      rw [if_neg (by simp), List.takeWhile_cons, if_pos hcl]
      by_cases hnl : (c == '\n') = true
      · rw [if_pos hnl]
        have hfa : ((c :: rest.takeWhile (fun c => !(c == ']' || c == ')'))).all
            (fun c => !(c == '\n'))) = false := by
          rw [List.all_cons]
          have hb : (!(c == '\n')) = false := by simp [hnl]
          simp only [hb, Bool.false_and]
        rw [hfa]
        simp
      · rw [if_neg hnl, ih h]
        have hnl' : (!(c == '\n')) = true := by
          cases hb : (c == '\n') with
          | true => exact absurd hb hnl
          | false => simp
        have htw : ((c :: rest.takeWhile (fun c => !(c == ']' || c == ')'))).all
            (fun c => !(c == '\n')))
            = (rest.takeWhile (fun c => !(c == ']' || c == ')'))).all
                (fun c => !(c == '\n')) := by
          rw [List.all_cons]
          simp only [hnl', Bool.true_and]
        rw [htw]
        by_cases hall : (rest.takeWhile (fun c => !(c == ']' || c == ')'))).all
            (fun c => !(c == '\n')) = true
        · rw [if_pos hall, if_pos hall]
          simp
        · rw [if_neg hall, if_neg hall]
          rfl
    · have hcl' : (c == ']' || c == ')') = true := bool_not_not hcl
      simp only [seekCloser, hcl', Bool.not_true, List.takeWhile_cons]
      simp

theorem bracketsMatcher_eq_amended (prev : Option Char) (cs : List Char) :
    bracketsMatcher prev cs = amendedBracketMatcher prev cs := by
  cases cs with
  | nil => rfl
  | cons c0 cs1 =>
    cases cs1 with
    | nil => rfl
    | cons c1 rest =>
      simp only [bracketsMatcher, amendedBracketMatcher]
      by_cases hw : (pyWs c0 && (c1 == '[' || c1 == '(')) = true
      · rw [if_pos hw, if_pos hw, drop_length_takeWhile]
        cases hdw : rest.dropWhile (fun c => !(c == ']' || c == ')')) with
        | nil => rw [seekCloser_of_dropWhile_nil hdw]; rfl
        | cons y ys =>
          rw [seekCloser_of_dropWhile_cons hdw]
          by_cases hall : (rest.takeWhile (fun c => !(c == ']' || c == ')'))).all
              (fun c => !(c == '\n')) = true
          · rw [if_pos hall, if_pos hall]
            simp [Nat.add_assoc]
          · rw [if_neg hall, if_neg hall]
            rfl
      · rw [if_neg hw, if_neg hw]

/-- The matchers agree, hence the full substitution passes agree. -/
theorem clean_brackets_eq_amended_clean (t : List Char) :
    clean_brackets t = amendedBracketClean t := by
  unfold clean_brackets amendedBracketClean
  have h : bracketsMatcher = amendedBracketMatcher :=
    funext fun p => funext fun cs => bracketsMatcher_eq_amended p cs
  rw [h]

/-- C8 counterexample: the claim's reading — a run delimited by `[...]`
or `(...)` — does not match the code.  With mismatched delimiters the
code removes `" (a]"` though it is not delimited by `(...)`; with a
newline inside, the code keeps `" (a\nb)"` though the claim's reading
removes it. -/
theorem C8_brackets_cex :
    (clean_brackets "x (a]".toList = "x".toList ∧
      claimBracketClean "x (a]".toList = "x (a]".toList) ∧
    (clean_brackets "x (a\nb)".toList = "x (a\nb)".toList ∧
      claimBracketClean "x (a\nb)".toList = "x".toList) ∧
    clean_brackets "x (a]".toList ≠ claimBracketClean "x (a]".toList := by
  refine ⟨⟨by decide, by decide⟩, ⟨by decide, by decide⟩, by decide⟩

/-- C8 (amended): `clean_brackets` removes, in a single left-to-right
pass, exactly every occurrence of a whitespace character immediately
followed by an opening `[` or `(` whose run extends to the first
subsequent `]` or `)` — either closer, regardless of pairing — with no
newline strictly inside; nothing else is removed. -/
theorem C8_brackets_contract (t : List Char) :
    clean_brackets t = amendedBracketClean t :=
  clean_brackets_eq_amended_clean t

/-- C7: the cleanup cascade never lengthens a transcript:
`len(clean(t)) ≤ len(t)` for every text. -/
theorem C7_clean_length (t : List Char) : (clean t).length ≤ t.length :=
  clean_length_le t

/-- C5 counterexample: the cascade is not idempotent.  On
`"x. A:B: c"` the first run turns the inline marker `" A:"` into a line
break, leaving the line-start marker `"B:"`, which only the second run
removes: `clean(t) = "x.\nB: c"` but `clean(clean(t)) = "x.  c"`. -/
theorem C5_idempotent_cex :
    clean "x. A:B: c".toList = "x.\nB: c".toList ∧
    clean (clean "x. A:B: c".toList) = "x.  c".toList ∧
    clean (clean "x. A:B: c".toList) ≠ clean "x. A:B: c".toList := by
  refine ⟨by decide, by decide, by decide⟩

/-- C5 (amended): a second run of the cascade may change the text
further (the cascade is not idempotent), but it never lengthens it:
`len(clean(clean(t))) ≤ len(clean(t))` for every transcript. -/
theorem C5_second_run_shrinks (t : List Char) :
    (clean (clean t)).length ≤ (clean t).length :=
  clean_length_le (clean t)

/-- C2 (code bug): when the whole query range falls inside a single
span, `split_by_speakers` returns that span clipped — a one-element
list — although its own docstring (and the spec) promise an empty
list.  Evaluation of the code at the failing input. -/
theorem C2_split_single_span :
    split_by_speakers [("A".toList, 0, 10)] 2 5 = [("A".toList, 2, 5)] ∧
    split_by_speakers [("A".toList, 0, 10)] 2 5 ≠ [] := by
  refine ⟨by decide, by decide⟩

/-- C3 (code bug): `clean_titles` replaces a matched title with a
newline character rather than an empty line, so the surrounding
newlines are kept *and* one is added: the four-line scenario input
becomes six lines, and `More text` moves from line 4 to line 6, though
the heading lines are removed and `Body text`/`More text` themselves
are unchanged.  Evaluation of the code at the failing input. -/
theorem C3_clean_titles_scenario :
    clean_titles "FOCUS - The Economy\nBody text\nINTRO\nMore text".toList
      = "\n\nBody text\n\n\nMore text".toList ∧
    (pySplitlines "FOCUS - The Economy\nBody text\nINTRO\nMore text".toList).length = 4 ∧
    (pySplitlines "\n\nBody text\n\n\nMore text".toList).length = 6 := by
  refine ⟨by decide, by decide, by decide⟩

/-!
### Output-path conflict handling
-/

theorem firstFreshFrom_spec :
    ∀ (f : Nat) (existing : List (List Char)) (root : List Char) (cnt : Nat) (q : List Char),
      firstFreshFrom existing root f cnt = some q →
      existing.contains q = false ∧ ∃ c, cnt ≤ c ∧ q = suffixedName root c := by
  intro f
  induction f with
  | zero => intro existing root cnt q h; simp [firstFreshFrom] at h
  | succ f ih =>
    intro existing root cnt q h
    simp only [firstFreshFrom] at h
    split at h
    · obtain ⟨h1, c, hc1, hc2⟩ := ih existing root (cnt + 1) q h
      exact ⟨h1, c, by omega, hc2⟩
    · next hcond =>
      simp only [Option.some.injEq] at h
      subst h
      refine ⟨?_, cnt, le_refl _, rfl⟩
      cases hb : existing.contains (suffixedName root cnt) with
      | true => exact absurd hb hcond
      | false => rfl

/-- C9 counterexample: `clean_and_write` writes to its output path
unconditionally — when the path already exists it is overwritten, with
no numeric-suffix resolution. -/
theorem C9_cleanwrite_overwrites_cex :
    clean_and_write_target ["o.txt".toList] "o.txt".toList = "o.txt".toList ∧
    "o.txt".toList ∈ ["o.txt".toList] := by
  refine ⟨by decide, by decide⟩

/-- C9 (amended): `create_AAPB_json` never overwrites — with no
conflict it writes the requested path, and on conflict any path it
settles on is fresh and of the numeric-suffix form `root_c.json` —
but `clean_and_write` does overwrite a preexisting output (see the
counterexample). -/
theorem C9_create_no_overwrite :
    (∀ (existing : List (List Char)) (p : List Char),
        existing.contains p = false → create_AAPB_json_target existing p = some p) ∧
    (∀ (existing : List (List Char)) (p q : List Char),
        create_AAPB_json_target existing p = some q →
        existing.contains q = false ∧
          (existing.contains p = true →
            ∃ c, 1 ≤ c ∧ q = suffixedName (splitextRoot p) c)) := by
  constructor
  · intro existing p h
    unfold create_AAPB_json_target
    rw [if_neg (by rw [h]; exact Bool.false_ne_true)]
  · intro existing p q h
    unfold create_AAPB_json_target at h
    split at h
    · obtain ⟨h1, c, hc1, hc2⟩ := firstFreshFrom_spec _ _ _ _ _ h
      exact ⟨h1, fun _ => ⟨c, hc1, hc2⟩⟩
    · next hcond =>
      simp only [Option.some.injEq] at h
      subst h
      refine ⟨?_, fun hcontra => absurd hcontra hcond⟩
      cases hb : existing.contains p with
      | true => exact absurd hb hcond
      | false => rfl

/-- C9 witness: with `out.json` already present, `create_AAPB_json`
settles on the fresh suffixed path `out_1.json`. -/
theorem C9_create_no_overwrite_witness :
    ["out.json".toList].contains "out.json".toList = true ∧
    create_AAPB_json_target ["out.json".toList] "out.json".toList
      = some "out_1.json".toList ∧
    ["out.json".toList].contains "out_1.json".toList = false ∧
    (∃ c, 1 ≤ c ∧ "out_1.json".toList = suffixedName (splitextRoot "out.json".toList) c) := by
  refine ⟨by decide, by decide, ?_, ?_⟩
  · exact (C9_create_no_overwrite.2 ["out.json".toList] "out.json".toList
      "out_1.json".toList (by decide)).1
  · exact (C9_create_no_overwrite.2 ["out.json".toList] "out.json".toList
      "out_1.json".toList (by decide)).2 (by decide)

/-!
### GUID extraction
-/

theorem matchLit_iff : ∀ {lit cs r : List Char}, matchLit lit cs = some r ↔ cs = lit ++ r := by
  intro lit
  induction lit with
  | nil =>
    intro cs r
    simp only [matchLit, Option.some.injEq, List.nil_append]
  | cons l ls ih =>
    intro cs r
    cases cs with
    | nil => simp [matchLit]
    | cons c cs' =>
      simp only [matchLit]
      by_cases hlc : (l == c) = true
      · have : l = c := by simpa using hlc
        subst this
        rw [if_pos hlc]
        simp only [List.cons_append, List.cons.injEq, true_and]
        exact ih
      · have : ¬ l = c := by simpa using hlc
        rw [if_neg hlc]
        simp only [List.cons_append, List.cons.injEq]
        constructor
        · intro h; exact absurd h (by simp)
        · rintro ⟨h1, _⟩; exact absurd h1.symm this

theorem guidMatchAt_hasToken {cs g : List Char} (h : guidMatchAt cs = some g) :
    GUID_TOKEN <+: cs := by
  unfold guidMatchAt at h
  split at h
  case _ sep r1 heq => exact ⟨sep :: r1, (matchLit_iff.mp heq).symm⟩
  case _ => exact absurd h (by simp)

theorem reSearchGuid_none :
    ∀ {s : List Char}, (∀ j : Nat, ¬ GUID_TOKEN <+: s.drop j) → reSearchGuid s = none := by
  intro s
  induction s with
  | nil => intro _; rfl
  | cons a l ih =>
    intro h
    have h0 : guidMatchAt (a :: l) = none := by
      cases hg : guidMatchAt (a :: l) with
      | none => rfl
      | some g => exact absurd (guidMatchAt_hasToken hg) (by simpa using h 0)
    show (guidMatchAt (a :: l) <|> reSearchGuid l) = none
    rw [h0, ih (fun j => by simpa [List.drop_succ_cons] using h (j + 1))]
    rfl

theorem reSearchGuid_append_skip :
    ∀ (p tail : List Char),
      (∀ j : Nat, j < p.length → ¬ GUID_TOKEN <+: ((p ++ tail).drop j)) →
      reSearchGuid (p ++ tail) = reSearchGuid tail := by
  intro p
  induction p with
  | nil => intro tail _; rfl
  | cons a p' ih =>
    intro tail h
    have h0 : guidMatchAt (a :: (p' ++ tail)) = none := by
      cases hg : guidMatchAt (a :: (p' ++ tail)) with
      | none => rfl
      | some g =>
        refine absurd (guidMatchAt_hasToken hg) ?_
        have := h 0 (by simp)
        simpa using this
    show (guidMatchAt (a :: (p' ++ tail)) <|> reSearchGuid (p' ++ tail)) = reSearchGuid tail
    rw [h0]
    show reSearchGuid (p' ++ tail) = reSearchGuid tail
    refine ih tail (fun j hj => ?_)
    have := h (j + 1) (by simpa using Nat.succ_lt_succ hj)
    simpa [List.drop_succ_cons] using this

theorem reSearchGuid_of_matchAt {s g : List Char} (hne : s ≠ [])
    (h : guidMatchAt s = some g) : reSearchGuid s = some g := by
  cases s with
  | nil => exact absurd rfl hne
  | cons a l =>
    show (guidMatchAt (a :: l) <|> reSearchGuid l) = some g
    rw [h]
    rfl

theorem takeWhile_append_all {p : Char → Bool} :
    ∀ {l1 : List Char} {d : Char} {l2 : List Char},
      (∀ x ∈ l1, p x = true) → p d = false → (l1 ++ d :: l2).takeWhile p = l1 := by
  intro l1
  induction l1 with
  | nil => intro d l2 _ hd; simp [List.takeWhile_cons, hd]
  | cons a l ih =>
    intro d l2 h hd
    have hpa := h a (List.mem_cons_self _ _)
    simp only [List.cons_append, List.takeWhile_cons, hpa, if_true]
    rw [ih (fun x hx => h x (List.mem_cons_of_mem _ hx)) hd]

theorem guidMatchAt_structured {run rest : List Char} {c d : Char}
    (h2 : c = '-' ∨ c = '_') (h3 : run ≠ [])
    (h4 : ∀ x ∈ run, isGuidRunChar x = true) (h5 : isGuidRunChar d = false)
    (h6 : ¬ d = '\n') :
    guidMatchAt (GUID_TOKEN ++ c :: (run ++ d :: rest)) = some (GUID_TOKEN ++ c :: run) := by
  have hm : matchLit GUID_TOKEN (GUID_TOKEN ++ c :: (run ++ d :: rest))
      = some (c :: (run ++ d :: rest)) := matchLit_iff.mpr rfl
  have hsep : (c == '-' || c == '_') = true := by
    rcases h2 with rfl | rfl <;> decide
  have htw : (run ++ d :: rest).takeWhile isGuidRunChar = run := takeWhile_append_all h4 h5
  have hdr : (run ++ d :: rest).drop run.length = d :: rest := by
    have := List.drop_left run (d :: rest)
    exact this
  have hempty : run.isEmpty = false := by
    cases run with
    | nil => exact absurd rfl h3
    | cons _ _ => rfl
  have hdnl : (d == '\n') = false := by
    cases hb : (d == '\n') with
    | true => exact absurd (by simpa using hb) h6
    | false => rfl
  simp only [guidMatchAt, hm, hsep, htw, hdr, hempty, hdnl, if_pos, if_false]
  simp

theorem splitSepF_succ (f : Nat) (cs : List Char) :
    splitSepF (f + 1) cs =
      match cs.drop (cs.takeWhile (fun c => !(c == '-' || c == '_'))).length with
      | [] => [cs.takeWhile (fun c => !(c == '-' || c == '_'))]
      | _ :: rest => cs.takeWhile (fun c => !(c == '-' || c == '_')) :: splitSepF f rest := rfl

theorem specTrimR_succ (f : Nat) (cs : List Char) :
    specTrimR (f + 1) cs =
      match cs.drop (cs.takeWhile (fun c => !(c == '-' || c == '_'))).length with
      | [] =>
        if pyIsAlpha (cs.takeWhile (fun c => !(c == '-' || c == '_'))) then none
        else some (cs.takeWhile (fun c => !(c == '-' || c == '_')))
      | s :: r =>
        match specTrimR f r with
        | some kept => some (cs.takeWhile (fun c => !(c == '-' || c == '_')) ++ s :: kept)
        | none =>
          if pyIsAlpha (cs.takeWhile (fun c => !(c == '-' || c == '_'))) then none
          else some (cs.takeWhile (fun c => !(c == '-' || c == '_'))) := rfl

theorem splitSepF_fuel :
    ∀ (n : Nat) (cs : List Char), cs.length ≤ n →
      ∀ f1 f2 : Nat, cs.length < f1 → cs.length < f2 → splitSepF f1 cs = splitSepF f2 cs := by
  intro n
  induction n with
  | zero =>
    intro cs hcs f1 f2 h1 h2
    obtain ⟨f1, rfl⟩ : ∃ k, f1 = k + 1 := ⟨f1 - 1, by omega⟩
    obtain ⟨f2, rfl⟩ : ∃ k, f2 = k + 1 := ⟨f2 - 1, by omega⟩
    have hnil : cs = [] := List.eq_nil_of_length_eq_zero (Nat.le_zero.mp hcs)
    subst hnil
    rfl
  | succ n ih =>
    intro cs hcs f1 f2 h1 h2
    obtain ⟨f1, rfl⟩ : ∃ k, f1 = k + 1 := ⟨f1 - 1, by omega⟩
    obtain ⟨f2, rfl⟩ : ∃ k, f2 = k + 1 := ⟨f2 - 1, by omega⟩
    rw [splitSepF_succ, splitSepF_succ]
    cases hd : cs.drop (cs.takeWhile (fun c => !(c == '-' || c == '_'))).length with
    | nil => rfl
    | cons s rest =>
      have hlt : rest.length < cs.length := by
        have hc := congrArg List.length hd
        simp only [List.length_drop, List.length_cons] at hc
        omega
      show cs.takeWhile (fun c => !(c == '-' || c == '_')) :: splitSepF f1 rest
          = cs.takeWhile (fun c => !(c == '-' || c == '_')) :: splitSepF f2 rest
      rw [ih rest (by omega) f1 f2 (by omega) (by omega)]

theorem specTrimR_fuel :
    ∀ (n : Nat) (cs : List Char), cs.length ≤ n →
      ∀ f1 f2 : Nat, cs.length < f1 → cs.length < f2 → specTrimR f1 cs = specTrimR f2 cs := by
  intro n
  induction n with
  | zero =>
    intro cs hcs f1 f2 h1 h2
    obtain ⟨f1, rfl⟩ : ∃ k, f1 = k + 1 := ⟨f1 - 1, by omega⟩
    obtain ⟨f2, rfl⟩ : ∃ k, f2 = k + 1 := ⟨f2 - 1, by omega⟩
    have hnil : cs = [] := List.eq_nil_of_length_eq_zero (Nat.le_zero.mp hcs)
    subst hnil
    rfl
  | succ n ih =>
    intro cs hcs f1 f2 h1 h2
    obtain ⟨f1, rfl⟩ : ∃ k, f1 = k + 1 := ⟨f1 - 1, by omega⟩
    obtain ⟨f2, rfl⟩ : ∃ k, f2 = k + 1 := ⟨f2 - 1, by omega⟩
    rw [specTrimR_succ, specTrimR_succ]
    cases hd : cs.drop (cs.takeWhile (fun c => !(c == '-' || c == '_'))).length with
    | nil => rfl
    | cons s rest =>
      have hlt : rest.length < cs.length := by
        have hc := congrArg List.length hd
        simp only [List.length_drop, List.length_cons] at hc
        omega
      show (match specTrimR f1 rest with
            | some kept => some (cs.takeWhile (fun c => !(c == '-' || c == '_')) ++ s :: kept)
            | none =>
              if pyIsAlpha (cs.takeWhile (fun c => !(c == '-' || c == '_'))) then none
              else some (cs.takeWhile (fun c => !(c == '-' || c == '_'))))
          = (match specTrimR f2 rest with
            | some kept => some (cs.takeWhile (fun c => !(c == '-' || c == '_')) ++ s :: kept)
            | none =>
              if pyIsAlpha (cs.takeWhile (fun c => !(c == '-' || c == '_'))) then none
              else some (cs.takeWhile (fun c => !(c == '-' || c == '_'))))
      rw [ih rest (by omega) f1 f2 (by omega) (by omega)]

theorem drop_cons_length_lt {P : Char → Bool} {g : List Char} {s : Char} {r : List Char}
    (hd : g.drop (g.takeWhile P).length = s :: r) : r.length < g.length := by
  have hc := congrArg List.length hd
  simp only [List.length_drop, List.length_cons] at hc
  omega

theorem takeWhile_eq_self_of_drop_nil {P : Char → Bool} {g : List Char}
    (hd : g.drop (g.takeWhile P).length = []) : g.takeWhile P = g := by
  rw [drop_length_takeWhile] at hd
  have hsplit := List.takeWhile_append_dropWhile P g
  rw [hd, List.append_nil] at hsplit
  exact hsplit

theorem take_length_takeWhile (P : Char → Bool) (l : List Char) :
    l.take (l.takeWhile P).length = l.takeWhile P := by
  induction l with
  | nil => rfl
  | cons a l ih =>
    by_cases h : P a = true
    · simp [List.takeWhile_cons, h, List.take_succ_cons, ih]
    · simp [List.takeWhile_cons, h]

theorem decomp_of_drop_cons {P : Char → Bool} {g : List Char} {s : Char} {r : List Char}
    (hd : g.drop (g.takeWhile P).length = s :: r) :
    g = g.takeWhile P ++ s :: r := by
  conv_lhs => rw [← List.take_append_drop (g.takeWhile P).length g]
  rw [hd]
  congr 1
  exact take_length_takeWhile P g

theorem splitSep_of_drop_nil {g : List Char}
    (hd : g.drop (g.takeWhile (fun c => !(c == '-' || c == '_'))).length = []) :
    splitSep g = [g] := by
  show splitSepF (g.length + 1) g = [g]
  rw [splitSepF_succ]
  simp only [hd]
  rw [takeWhile_eq_self_of_drop_nil hd]

theorem splitSep_of_drop_cons {g : List Char} {s : Char} {r : List Char}
    (hd : g.drop (g.takeWhile (fun c => !(c == '-' || c == '_'))).length = s :: r) :
    splitSep g = g.takeWhile (fun c => !(c == '-' || c == '_')) :: splitSep r := by
  have hrl : r.length < g.length := drop_cons_length_lt hd
  show splitSepF (g.length + 1) g = _
  rw [splitSepF_succ]
  simp only [hd]
  congr 1
  exact splitSepF_fuel r.length r (Nat.le_refl _) g.length (r.length + 1) hrl (Nat.lt_succ_self _)

theorem specTrimR_of_drop_nil {g : List Char}
    (hd : g.drop (g.takeWhile (fun c => !(c == '-' || c == '_'))).length = []) :
    specTrimR (g.length + 1) g = if pyIsAlpha g then none else some g := by
  rw [specTrimR_succ]
  simp only [hd]
  rw [takeWhile_eq_self_of_drop_nil hd]

theorem specTrimR_cons_some {g : List Char} {s : Char} {r kept : List Char}
    (hd : g.drop (g.takeWhile (fun c => !(c == '-' || c == '_'))).length = s :: r)
    (hrec : specTrimR (r.length + 1) r = some kept) :
    specTrimR (g.length + 1) g
      = some (g.takeWhile (fun c => !(c == '-' || c == '_')) ++ s :: kept) := by
  have hrl : r.length < g.length := drop_cons_length_lt hd
  rw [specTrimR_succ]
  simp only [hd]
  rw [specTrimR_fuel r.length r (Nat.le_refl _) g.length (r.length + 1) hrl (Nat.lt_succ_self _),
    hrec]

theorem specTrimR_cons_none {g : List Char} {s : Char} {r : List Char}
    (hd : g.drop (g.takeWhile (fun c => !(c == '-' || c == '_'))).length = s :: r)
    (hrec : specTrimR (r.length + 1) r = none) :
    specTrimR (g.length + 1) g
      = if pyIsAlpha (g.takeWhile (fun c => !(c == '-' || c == '_'))) then none
        else some (g.takeWhile (fun c => !(c == '-' || c == '_'))) := by
  have hrl : r.length < g.length := drop_cons_length_lt hd
  rw [specTrimR_succ]
  simp only [hd]
  rw [specTrimR_fuel r.length r (Nat.le_refl _) g.length (r.length + 1) hrl (Nat.lt_succ_self _),
    hrec]

theorem leadAlphaCount_cons (p : List Char) (ps : List (List Char)) :
    leadAlphaCount (p :: ps) = if pyIsAlpha p then 1 + leadAlphaCount ps else 0 := rfl

theorem leadAlphaCount_le (L : List (List Char)) : leadAlphaCount L ≤ L.length := by
  induction L with
  | nil => simp [leadAlphaCount]
  | cons p ps ih =>
    rw [leadAlphaCount_cons]
    by_cases hp : pyIsAlpha p = true
    · rw [if_pos hp]
      simp only [List.length_cons]
      omega
    · rw [if_neg hp]
      simp only [List.length_cons]
      omega

theorem leadAlphaCount_append_lt {A : List (List Char)} (B : List (List Char))
    (h : leadAlphaCount A < A.length) :
    leadAlphaCount (A ++ B) = leadAlphaCount A := by
  induction A with
  | nil => simp at h
  | cons p ps ih =>
    show leadAlphaCount (p :: (ps ++ B)) = leadAlphaCount (p :: ps)
    rw [leadAlphaCount_cons, leadAlphaCount_cons]
    by_cases hp : pyIsAlpha p = true
    · rw [if_pos hp, if_pos hp]
      rw [leadAlphaCount_cons, if_pos hp, List.length_cons] at h
      rw [ih (by omega)]
    · rw [if_neg hp, if_neg hp]

theorem leadAlphaCount_append_full {A : List (List Char)} (B : List (List Char))
    (h : leadAlphaCount A = A.length) :
    leadAlphaCount (A ++ B) = A.length + leadAlphaCount B := by
  induction A with
  | nil => simp
  | cons p ps ih =>
    show leadAlphaCount (p :: (ps ++ B)) = (p :: ps).length + leadAlphaCount B
    rw [leadAlphaCount_cons]
    by_cases hp : pyIsAlpha p = true
    · rw [if_pos hp]
      rw [leadAlphaCount_cons, if_pos hp, List.length_cons] at h
      rw [ih (by omega), List.length_cons]
      omega
    · rw [leadAlphaCount_cons, if_neg hp, List.length_cons] at h
      omega

theorem leadAlphaCount_eq_length_iff (L : List (List Char)) :
    leadAlphaCount L = L.length ↔ ∀ p ∈ L, pyIsAlpha p = true := by
  induction L with
  | nil => simp [leadAlphaCount]
  | cons p ps ih =>
    by_cases hp : pyIsAlpha p = true
    · constructor
      · intro h q hq
        rcases List.mem_cons.mp hq with rfl | hq2
        · exact hp
        · refine (ih.mp ?_) q hq2
          rw [leadAlphaCount_cons, if_pos hp, List.length_cons] at h
          omega
      · intro h
        have hps : leadAlphaCount ps = ps.length :=
          ih.mpr (fun q hq => h q (List.mem_cons_of_mem p hq))
        rw [leadAlphaCount_cons, if_pos hp, List.length_cons, hps]
        omega
    · constructor
      · intro h
        rw [leadAlphaCount_cons, if_neg hp, List.length_cons] at h
        omega
      · intro h
        exact absurd (h p (List.mem_cons_self p ps)) hp

theorem guidTrim_eq (g : List Char) :
    guidTrim g =
      g.take
        (if (((splitSep g).reverse).drop (leadAlphaCount ((splitSep g).reverse))).isEmpty then 0
         else ((((splitSep g).reverse).drop (leadAlphaCount ((splitSep g).reverse))).map
                 List.length).sum
              + ((((splitSep g).reverse).drop (leadAlphaCount ((splitSep g).reverse))).length
                 - 1)) := rfl

theorem guidTrim_of_all_alpha {g : List Char}
    (h : ∀ p ∈ splitSep g, pyIsAlpha p = true) : guidTrim g = [] := by
  have hall : leadAlphaCount ((splitSep g).reverse) = ((splitSep g).reverse).length :=
    (leadAlphaCount_eq_length_iff _).mpr (fun p hp => h p (List.mem_reverse.mp hp))
  rw [guidTrim_eq, hall, List.drop_length]
  simp

theorem guidTrim_single {g : List Char} (h : splitSep g = [g]) (hna : pyIsAlpha g = false) :
    guidTrim g = g := by
  rw [guidTrim_eq, h]
  simp [leadAlphaCount, hna, List.take_length]

theorem guidTrim_cons_all {g tok r : List Char} {s : Char}
    (hg : g = tok ++ s :: r)
    (hsp : splitSep g = tok :: splitSep r)
    (hall : ∀ p ∈ splitSep r, pyIsAlpha p = true) (hna : pyIsAlpha tok = false) :
    guidTrim g = tok := by
  subst hg
  have hfull : leadAlphaCount ((splitSep r).reverse) = ((splitSep r).reverse).length :=
    (leadAlphaCount_eq_length_iff _).mpr (fun p hp => hall p (List.mem_reverse.mp hp))
  rw [guidTrim_eq, hsp, List.reverse_cons, leadAlphaCount_append_full [tok] hfull]
  have h0 : leadAlphaCount [tok] = 0 := by simp [leadAlphaCount, hna]
  rw [h0]
  have hdrop : (((splitSep r).reverse) ++ [tok]).drop (((splitSep r).reverse).length + 0)
      = [tok] := by
    rw [Nat.add_zero, List.drop_left]
  rw [hdrop]
  rw [if_neg (by simp)]
  have hnum : ([tok].map List.length).sum + ([tok].length - 1) = tok.length := by simp
  rw [hnum, List.take_left]

theorem guidTrim_cons_not_all {g tok r : List Char} {s : Char}
    (hg : g = tok ++ s :: r)
    (hsp : splitSep g = tok :: splitSep r)
    (hnall : ¬ ∀ p ∈ splitSep r, pyIsAlpha p = true) :
    guidTrim g = tok ++ s :: guidTrim r := by
  subst hg
  have hlt : leadAlphaCount ((splitSep r).reverse) < ((splitSep r).reverse).length := by
    rcases Nat.lt_or_ge (leadAlphaCount ((splitSep r).reverse))
      ((splitSep r).reverse).length with h | h
    · exact h
    · exact absurd (fun p hp => (leadAlphaCount_eq_length_iff _).mp
        (Nat.le_antisymm (leadAlphaCount_le _) h) p (List.mem_reverse.mpr hp)) hnall
  rw [guidTrim_eq (tok ++ s :: r), guidTrim_eq r, hsp, List.reverse_cons,
    leadAlphaCount_append_lt [tok] hlt,
    List.drop_append_of_le_length (Nat.le_of_lt hlt)]
  obtain ⟨D, hD⟩ :
      ∃ D, (((splitSep r).reverse).drop (leadAlphaCount ((splitSep r).reverse))) = D :=
    ⟨_, rfl⟩
  rw [hD]
  have hDlen : 0 < D.length := by
    rw [← hD, List.length_drop]
    omega
  have hDne : ¬ (D.isEmpty = true) := by
    cases D with
    | nil => simp at hDlen
    | cons a l => simp
  have hDappne : ¬ ((D ++ [tok]).isEmpty = true) := by
    cases D with
    | nil => simp at hDlen
    | cons a l => simp
  rw [if_neg hDappne, if_neg hDne]
  have hnum : ((D ++ [tok]).map List.length).sum + ((D ++ [tok]).length - 1)
      = tok.length + (((D.map List.length).sum + (D.length - 1)) + 1) := by
    simp only [List.map_append, List.sum_append, List.length_append, List.map_cons,
      List.map_nil, List.sum_cons, List.sum_nil, List.length_cons, List.length_nil]
    omega
  rw [hnum, List.take_append, List.take_succ_cons]

theorem guidTrim_vs_spec :
    ∀ (n : Nat) (g : List Char), g.length ≤ n →
      (specTrimR (g.length + 1) g = none →
        (∀ p ∈ splitSep g, pyIsAlpha p = true) ∧ guidTrim g = []) ∧
      (∀ kept, specTrimR (g.length + 1) g = some kept →
        (¬ ∀ p ∈ splitSep g, pyIsAlpha p = true) ∧ guidTrim g = kept) := by
  intro n
  induction n with
  | zero =>
    intro g hg
    have hnil : g = [] := List.eq_nil_of_length_eq_zero (Nat.le_zero.mp hg)
    subst hnil
    constructor
    · intro h
      exact absurd h (by decide)
    · intro kept h
      have h2 : specTrimR (List.length ([] : List Char) + 1) ([] : List Char) = some [] := by
        decide
      rw [h2] at h
      have hk : ([] : List Char) = kept := Option.some_inj.mp h
      subst hk
      exact ⟨by decide, by decide⟩
  | succ n ih =>
    intro g hg
    cases hd : g.drop (g.takeWhile (fun c => !(c == '-' || c == '_'))).length with
    | nil =>
      have hsp := splitSep_of_drop_nil hd
      rw [specTrimR_of_drop_nil hd]
      by_cases ha : pyIsAlpha g = true
      · rw [if_pos ha]
        have hallg : ∀ p ∈ splitSep g, pyIsAlpha p = true := by
          intro p hp
          rw [hsp] at hp
          rw [List.mem_singleton.mp hp]
          exact ha
        exact ⟨fun _ => ⟨hallg, guidTrim_of_all_alpha hallg⟩,
          fun kept h => Option.noConfusion h⟩
      · rw [if_neg ha]
        have ha2 : pyIsAlpha g = false := by
          revert ha
          cases pyIsAlpha g
          · simp
          · simp
        refine ⟨fun h => Option.noConfusion h, fun kept h => ?_⟩
        have hk : g = kept := Option.some_inj.mp h
        subst hk
        refine ⟨fun hall => ha (hall g ?_), guidTrim_single hsp ha2⟩
        rw [hsp]
        exact List.mem_singleton_self g
    | cons s r =>
      have hrl : r.length < g.length := drop_cons_length_lt hd
      have hsp := splitSep_of_drop_cons hd
      have IH := ih r (by omega)
      cases hrec : specTrimR (r.length + 1) r with
      | none =>
        obtain ⟨hallr, -⟩ := IH.1 hrec
        rw [specTrimR_cons_none hd hrec]
        by_cases ha : pyIsAlpha (g.takeWhile (fun c => !(c == '-' || c == '_'))) = true
        · rw [if_pos ha]
          have hallg : ∀ p ∈ splitSep g, pyIsAlpha p = true := by
            intro p hp
            rw [hsp] at hp
            rcases List.mem_cons.mp hp with rfl | hp2
            · exact ha
            · exact hallr p hp2
          exact ⟨fun _ => ⟨hallg, guidTrim_of_all_alpha hallg⟩,
            fun kept h => Option.noConfusion h⟩
        · rw [if_neg ha]
          have ha2 : pyIsAlpha (g.takeWhile (fun c => !(c == '-' || c == '_'))) = false := by
            revert ha
            cases pyIsAlpha (g.takeWhile (fun c => !(c == '-' || c == '_')))
            · simp
            · simp
          refine ⟨fun h => Option.noConfusion h, fun kept h => ?_⟩
          have hk : g.takeWhile (fun c => !(c == '-' || c == '_')) = kept :=
            Option.some_inj.mp h
          subst hk
          constructor
          · intro hall
            exact ha (hall _ (by rw [hsp]; exact List.mem_cons_self _ _))
          · exact guidTrim_cons_all (decomp_of_drop_cons hd) hsp hallr ha2
      | some keptR =>
        obtain ⟨hnallr, htrim⟩ := IH.2 keptR hrec
        rw [specTrimR_cons_some hd hrec]
        refine ⟨fun h => Option.noConfusion h, fun kept h => ?_⟩
        have hk : g.takeWhile (fun c => !(c == '-' || c == '_')) ++ s :: keptR = kept :=
          Option.some_inj.mp h
        subst hk
        constructor
        · intro hall
          exact hnallr (fun p hp => hall p (by rw [hsp]; exact List.mem_cons_of_mem _ hp))
        · rw [guidTrim_cons_not_all (decomp_of_drop_cons hd) hsp hnallr, htrim]

theorem guidTrim_eq_spec (g : List Char) : guidTrim g = specGuidTrim g := by
  unfold specGuidTrim
  cases h : specTrimR (g.length + 1) g with
  | none => exact ((guidTrim_vs_spec g.length g (Nat.le_refl _)).1 h).2
  | some kept => exact ((guidTrim_vs_spec g.length g (Nat.le_refl _)).2 kept h).2

/-- C6 counterexample: when nothing follows the run — here the bare
GUID `"cpb-aacip-500-xyz123"` — the pattern's trailing `.` consumes the
run's last character, and the returned GUID loses it. -/
theorem C6_guid_extraction_cex :
    get_aapb_guid_from "cpb-aacip-500-xyz123".toList
      = some "cpb-aacip-500-xyz12".toList ∧
    some "cpb-aacip-500-xyz12".toList ≠ some "cpb-aacip-500-xyz123".toList := by
  refine ⟨by decide, by decide⟩

/-- C6 (amended): `get_aapb_guid_from` returns `none` when the prefix
token occurs nowhere; and when the input is `p ++ "cpb-aacip" ++ sep ++
run ++ d ++ rest` — with no token occurrence before `p.length`, `sep` a
hyphen or underscore, `run` a nonempty maximal run of
lowercase/digit/hyphen characters, and at least one more character `d`
(not a newline) after the run — it returns the token-by-token trim of
`"cpb-aacip" ++ sep ++ run`; in particular the claim's two examples
hold, and the code's trim agrees with the claim's reading of it
(`specGuidTrim`: drop trailing purely-alphabetic tokens from the right,
stopping at the first non-alphabetic one) on every group.  (When
nothing follows the run the claim fails: see the counterexample.) -/
theorem C6_guid_extraction :
    (∀ s : List Char, (∀ j : Nat, ¬ GUID_TOKEN <+: s.drop j) →
      get_aapb_guid_from s = none) ∧
    (∀ (p run rest : List Char) (c d : Char),
      (∀ j : Nat, j < p.length →
        ¬ GUID_TOKEN <+: ((p ++ (GUID_TOKEN ++ c :: (run ++ d :: rest))).drop j)) →
      (c = '-' ∨ c = '_') →
      run ≠ [] →
      (∀ x ∈ run, isGuidRunChar x = true) →
      isGuidRunChar d = false →
      ¬ d = '\n' →
      get_aapb_guid_from (p ++ (GUID_TOKEN ++ c :: (run ++ d :: rest)))
        = some (guidTrim (GUID_TOKEN ++ c :: run))) ∧
    get_aapb_guid_from "cpb-aacip-500-xyz123-transcript.json".toList
      = some "cpb-aacip-500-xyz123".toList ∧
    get_aapb_guid_from "no-guid-here.txt".toList = none ∧
    (∀ g : List Char, guidTrim g = specGuidTrim g) := by
  refine ⟨?_, ?_, by decide, by decide, guidTrim_eq_spec⟩
  · intro s h
    unfold get_aapb_guid_from
    rw [reSearchGuid_none h]
  · intro p run rest c d h1 h2 h3 h4 h5 h6
    unfold get_aapb_guid_from
    rw [reSearchGuid_append_skip p _ h1,
      reSearchGuid_of_matchAt (by simp [GUID_TOKEN]) (guidMatchAt_structured h2 h3 h4 h5 h6)]

/-- C6 witness: the structured case instantiated on the claim's
example filename (empty prefix, separator `-`, maximal run
`500-xyz123-transcript`, followed by `.json`), with the trim evaluating
to `cpb-aacip-500-xyz123`; the none case on a string too short to
contain the token; and the trim-equivalence conjunct instantiated on
that same group. -/
theorem C6_guid_extraction_witness :
    get_aapb_guid_from "xy".toList = none ∧
    get_aapb_guid_from ([] ++ GUID_TOKEN ++ '-' ::
        ("500-xyz123-transcript".toList ++ '.' :: "json".toList))
      = some (guidTrim (GUID_TOKEN ++ '-' :: "500-xyz123-transcript".toList)) ∧
    guidTrim (GUID_TOKEN ++ '-' :: "500-xyz123-transcript".toList)
      = "cpb-aacip-500-xyz123".toList ∧
    guidTrim (GUID_TOKEN ++ '-' :: "500-xyz123-transcript".toList)
      = specGuidTrim (GUID_TOKEN ++ '-' :: "500-xyz123-transcript".toList) := by
  refine ⟨?_, ?_, by decide,
    C6_guid_extraction.2.2.2.2 (GUID_TOKEN ++ '-' :: "500-xyz123-transcript".toList)⟩
  · apply C6_guid_extraction.1
    intro j h
    have hle := h.length_le
    rw [List.length_drop] at hle
    have h3 : GUID_TOKEN.length = 9 := by decide
    have h4 : "xy".toList.length = 2 := by decide
    omega
  · exact C6_guid_extraction.2.1 [] "500-xyz123-transcript".toList "json".toList '-' '.'
      (fun j hj => absurd hj (Nat.not_lt_zero j)) (Or.inl rfl) (by decide) (by decide)
      (by decide) (by decide)

end ClamsUtils
